import Mathlib

/-!
Verification of the structural-analysis engine of the repository
(`src/analysis/file.rs`): the per-file line scanner, the type-relation
extraction, the transitive-closure builder, the method-signature and
configuration extractors and the summary generator.

Modelling conventions.
* Rust `&str` text is modelled as `String` / `List Char`; each regular
  expression of the source is hand-compiled into an executable matcher
  with the same leftmost-first backtracking semantics, specialised to
  the concrete pattern (the comments above every matcher quote the Rust
  pattern it embeds).
* Rust `HashSet<String>` is modelled as `Finset String` and
  `HashMap<String, _>` as an association list with first-key lookup;
  where the source iterates a `HashSet` into a `Vec` (an unspecified
  iteration order) the model uses the sorted order, which is the only
  place the nondeterminism of hash iteration could leak into results.
* The regex classes `\s` and `\w` are modelled on their ASCII meaning
  (`Char.isWhitespace` / alphanumeric or underscore), as is `str::trim`.
-/

namespace RA

/-- ASCII word character, the model of the regex class `\w` and of
`[a-zA-Z0-9_]`. -/
def isWordChar (c : Char) : Bool := c.isAlphanum || c == '_'

/-- Model of `str::trim` on the character list of a line. -/
def trimChars (cs : List Char) : List Char :=
  ((cs.dropWhile Char.isWhitespace).reverse.dropWhile Char.isWhitespace).reverse

/-- Split a character list at every occurrence of the separator,
keeping empty pieces (the semantics of Rust `str::split(sep)`). -/
def splitCh (sep : Char) : List Char → List (List Char)
  | [] => [[]]
  | c :: rest =>
    let r := splitCh sep rest
    if c = sep then [] :: r else (c :: r.headI) :: r.tail

/-- Remove one trailing carriage return, as Rust `str::lines` does for
`\r\n` line endings. -/
def stripCR (l : List Char) : List Char :=
  if l.getLast? = some '\r' then l.dropLast else l

/-- Model of Rust `str::lines`: split on `\n`, drop a final empty piece
produced by a trailing newline, and strip the `\r` of `\r\n` endings
(only pieces that were really followed by a `\n` are stripped). -/
def rustLines (s : String) : List (List Char) :=
  match s.data with
  | [] => []
  | cs =>
    let ps := splitCh '\n' cs
    ps.dropLast.map stripCR ++ (if ps.getLast? = some [] then [] else [ps.getLastD []])

/-! ### The type-declaration rule

Rust: `Regex::new(r"^(?:pub\s+)?(?:struct|enum|type)\s+([A-Z][a-zA-Z0-9_]*)")`,
used through `captures(line)` on the trimmed line; only capture group 1
is consumed.  The matcher below reproduces the anchored backtracking
search: the optional `pub` + whitespace prefix is tried first, and on
failure of the remainder the keyword alternation is retried at the
start of the line. -/

/-- `\s+` (at least one whitespace character, consumed greedily);
maximal munch is faithful here because the regex continues with a
non-whitespace-starting alternative. -/
def dropWs1 : List Char → Option (List Char)
  | c :: rest => if c.isWhitespace then some (rest.dropWhile Char.isWhitespace) else none
  | [] => none

/-- `([A-Z][a-zA-Z0-9_]*)`: an uppercase letter followed by the maximal
run of word characters; returns the capture and the rest. -/
def takeIdent : List Char → Option (String × List Char)
  | c :: rest =>
    if c.isUpper then
      some (String.mk (c :: rest.takeWhile isWordChar), rest.dropWhile isWordChar)
    else none
  | [] => none

/-- `(?:struct|enum|type)`: the keyword alternation, tried in the
source order of the pattern. -/
def kwTail (cs : List Char) : Option (List Char) :=
  if ("struct".data).isPrefixOf cs then some (cs.drop 6)
  else if ("enum".data).isPrefixOf cs then some (cs.drop 4)
  else if ("type".data).isPrefixOf cs then some (cs.drop 4)
  else none

/-- `(?:struct|enum|type)\s+([A-Z][a-zA-Z0-9_]*)` at the head of `cs`. -/
def kwAndIdent (cs : List Char) : Option String :=
  match kwTail cs with
  | some rest =>
    match dropWs1 rest with
    | some rest2 => (takeIdent rest2).map (fun p => p.1)
    | none => none
  | none => none

/-- Capture group 1 of the `type_decl` regex
`^(?:pub\s+)?(?:struct|enum|type)\s+([A-Z][a-zA-Z0-9_]*)` applied to a
(trimmed) line, `none` when the regex does not match. -/
def typeDeclCapture (cs : List Char) : Option String :=
  if ("pub".data).isPrefixOf cs then
    match dropWs1 (cs.drop 3) with
    | some rest =>
      match kwAndIdent rest with
      | some n => some n
      | none => kwAndIdent cs
    | none => kwAndIdent cs
  else kwAndIdent cs

/-! ### The derive rule

Rust: `Regex::new(r"#\[derive\((.*?)\)\]")` searched (unanchored) in a
line already known to start with `#[derive`; the lazy group captures up
to the first `)]` after the first `#[derive(` that has one. -/

/-- Split at the first occurrence of the two-character sequence `)]`:
returns the characters before it and the characters after it. -/
def findCloseBr : List Char → Option (List Char × List Char)
  | ')' :: ']' :: rest => some ([], rest)
  | c :: rest => (findCloseBr rest).map (fun p => (c :: p.1, p.2))
  | [] => none

/-- Capture group 1 of the derive regex `#\[derive\((.*?)\)\]`:
leftmost `#[derive(` occurrence that is followed by a `)]`, lazy body. -/
def deriveBody : List Char → Option String
  | [] => none
  | cs@(_ :: rest) =>
    if ("#[derive(".data).isPrefixOf cs then
      match findCloseBr (cs.drop 9) with
      | some p => some (String.mk p.1)
      | none => deriveBody rest
    else deriveBody rest

/-! ### `captures_iter` and the six dependency patterns

`analyze_dependencies` runs six regexes over a line with
`captures_iter` (non-overlapping matches, leftmost first) and collects
capture group 1 of every match.  Each matcher below takes the suffix of
the line starting at a candidate position and returns the capture plus
the remaining suffix after the whole match. -/

/-- Fuelled scan of a line with a positional matcher, reproducing
`captures_iter`: at each position try the pattern; on a match emit the
capture and resume after the matched text, otherwise advance one
character.  Every step strictly shortens the suffix, so fuel equal to
the line length (as supplied by `scanIter`) is never exhausted. -/
def scanIterF : Nat → (List Char → Option (String × List Char)) → List Char → List String
  | 0, _, _ => []
  | _ + 1, _, [] => []
  | fuel + 1, f, cs@(_ :: rest) =>
    match f cs with
    | some (cap, rem) =>
      if rem.length < cs.length then cap :: scanIterF fuel f rem
      else cap :: scanIterF fuel f rest
    | none => scanIterF fuel f rest

/-- `captures_iter` over a whole line. -/
def scanIter (f : List Char → Option (String × List Char)) (cs : List Char) : List String :=
  scanIterF cs.length f cs

/-- The optional `(?:&\s*)?` prefix of a type reference: a committed
choice is faithful because when the branch is taken and the following
`[A-Z]` fails, the no-ampersand alternative fails on the `&` itself. -/
def optAmp (cs : List Char) : List Char :=
  match cs with
  | '&' :: r => r.dropWhile Char.isWhitespace
  | _ => cs

/-- The optional trailing `(?:<[^>]*>)?`: consumed when a `<` with a
closing `>` follows, otherwise matched empty. -/
def optGen (cs : List Char) : List Char :=
  match cs with
  | '<' :: r =>
    let inner := r.takeWhile (fun c => c ≠ '>')
    match r.drop inner.length with
    | '>' :: r2 => r2
    | _ => cs
  | _ => cs

/-- Pattern 1, `:\s*(?:&\s*)?([A-Z][a-zA-Z0-9_]*)\s*(?:<[^>]*>)?`. -/
def depColon : List Char → Option (String × List Char)
  | ':' :: r =>
    let r1 := optAmp (r.dropWhile Char.isWhitespace)
    match takeIdent r1 with
    | some (name, r2) => some (name, optGen (r2.dropWhile Char.isWhitespace))
    | none => none
  | _ => none

/-- The lazy interior of pattern 2,
`[^)]*?(?:&\s*)?([A-Z][a-zA-Z0-9_]*)`: the earliest position before
the first `)` where an (optionally `&`-prefixed) uppercase identifier
starts. -/
def depFnInner : List Char → Option (String × List Char)
  | [] => none
  | cs@(c :: rest) =>
    if c = ')' then none
    else
      match (match cs with
             | '&' :: r => takeIdent (r.dropWhile Char.isWhitespace)
             | _ => takeIdent cs) with
      | some p => some p
      | none => depFnInner rest

/-- Pattern 2, `fn\s+\w+\s*(?:<[^>]*>)?\s*\([^)]*?(?:&\s*)?([A-Z][a-zA-Z0-9_]*)`. -/
def depFn (cs : List Char) : Option (String × List Char) :=
  if ("fn".data).isPrefixOf cs then
    match dropWs1 (cs.drop 2) with
    | none => none
    | some r =>
      match r with
      | c :: _ =>
        if isWordChar c then
          let r1 := optGen ((r.dropWhile isWordChar).dropWhile Char.isWhitespace)
          match r1.dropWhile Char.isWhitespace with
          | '(' :: r2 => depFnInner r2
          | _ => none
        else none
      | [] => none
  else none

/-- Pattern 3, `->\s*(?:Result<)?(?:&\s*)?([A-Z][a-zA-Z0-9_]*)`; when
the `Result<` branch is taken but no identifier follows, the regex
backtracks and reads `Result` itself as the identifier. -/
def depArrow : List Char → Option (String × List Char)
  | '-' :: '>' :: r0 =>
    let r := r0.dropWhile Char.isWhitespace
    if ("Result<".data).isPrefixOf r then
      match takeIdent (optAmp (r.drop 7)) with
      | some p => some p
      | none => takeIdent (optAmp r)
    else takeIdent (optAmp r)
  | _ => none

/-- The `\s*<[^>]*>` alternative inside pattern 4's optional group. -/
def optGenWs (cs : List Char) : Option (List Char) :=
  match cs.dropWhile Char.isWhitespace with
  | '<' :: r2 =>
    let inner := r2.takeWhile (fun c => c ≠ '>')
    match r2.drop inner.length with
    | '>' :: r3 => some r3
    | _ => none
  | _ => none

/-- `\s+([A-Z][a-zA-Z0-9_]*)\s+for`, the tail of pattern 4. -/
def depImplTail (r : List Char) : Option (String × List Char) :=
  match dropWs1 r with
  | some r1 =>
    match takeIdent r1 with
    | some (name, r2) =>
      match dropWs1 r2 with
      | some r3 => if ("for".data).isPrefixOf r3 then some (name, r3.drop 3) else none
      | none => none
    | none => none
  | none => none

/-- Pattern 4, `impl(?:\s*<[^>]*>)?\s+([A-Z][a-zA-Z0-9_]*)\s+for`. -/
def depImpl (cs : List Char) : Option (String × List Char) :=
  if ("impl".data).isPrefixOf cs then
    let r := cs.drop 4
    match (match optGenWs r with
           | some r1 => depImplTail r1
           | none => none) with
    | some p => some p
    | none => depImplTail r
  else none

/-- The first uppercase identifier inside a `<...>` region (the lazy
`[^>]*?([A-Z][a-zA-Z0-9_]*)` of pattern 5). -/
def firstUpperIdent : List Char → Option String
  | [] => none
  | c :: rest =>
    if c.isUpper then some (String.mk (c :: rest.takeWhile isWordChar))
    else firstUpperIdent rest

/-- Pattern 5, `<[^>]*?([A-Z][a-zA-Z0-9_]*)[^>]*>`: requires a closing
`>` and captures the first uppercase identifier strictly inside. -/
def depAngle : List Char → Option (String × List Char)
  | '<' :: r =>
    let region := r.takeWhile (fun c => c ≠ '>')
    match r.drop region.length with
    | '>' :: rest =>
      match firstUpperIdent region with
      | some name => some (name, rest)
      | none => none
    | _ => none
  | _ => none

/-- Pattern 6, `(?:Vec|Option|Box)<([A-Z][a-zA-Z0-9_]*)>`. -/
def depContainer (cs : List Char) : Option (String × List Char) :=
  let after := fun (k : Nat) =>
    match cs.drop k with
    | '<' :: r =>
      match takeIdent r with
      | some (name, '>' :: r2) => some (name, r2)
      | _ => none
    | _ => none
  if ("Vec".data).isPrefixOf cs then after 3
  else if ("Option".data).isPrefixOf cs then after 6
  else if ("Box".data).isPrefixOf cs then after 3
  else none

/-- The list of capture-group-1 strings produced by running the six
dependency patterns of `analyze_dependencies` over one line, in the
source order of the pattern array. -/
def extractRefs (line : List Char) : List String :=
  scanIter depColon line ++ scanIter depFn line ++ scanIter depArrow line ++
    scanIter depImpl line ++ scanIter depAngle line ++ scanIter depContainer line

/-! ### Data model (`types/analysis.rs`, `types/mod.rs`) -/

/-- `TypeRelations` of `types/analysis.rs`. -/
structure TypeRelations where
  type_name : String
  implemented_traits : List String
  used_by : List String
  depends_on : List String
deriving DecidableEq, Repr

/-- `Visibility` of `types/mod.rs` (the three variants used by the
signature extractor). -/
inductive Visibility where
  | Public
  | PublicCrate
  | Private
deriving DecidableEq, Repr

/-- `MethodSignature` of `types/analysis.rs`. -/
structure MethodSignature where
  name : String
  params : List String
  return_type : String
  visibility : Visibility
deriving DecidableEq, Repr

/-- `Configuration` of `types/analysis.rs`. -/
structure Configuration where
  constants : List (String × String × String)
  feature_flags : List String
  custom_attributes : List String
deriving DecidableEq, Repr

/-! ### String-keyed maps of sets

`HashMap<String, HashSet<String>>` is modelled as an association list
of `Finset String` values with first-key lookup; `HashSet` iteration
into a `Vec` is modelled by `Finset.sort`. -/

abbrev SMap := List (String × Finset String)

/-- `HashMap::get` with the empty set for a missing key. -/
def lookupD : SMap → String → Finset String
  | [], _ => ∅
  | p :: rest, k => if p.1 = k then p.2 else lookupD rest k

/-- `HashMap::contains_key`. -/
def hasKey : SMap → String → Bool
  | [], _ => false
  | p :: rest, k => p.1 = k || hasKey rest k

/-- `HashMap::insert` (replace the binding of the key, or append). -/
def insrt : SMap → String → Finset String → SMap
  | [], k, v => [(k, v)]
  | p :: rest, k, v => if p.1 = k then (k, v) :: rest else p :: insrt rest k v

/-- The union of every value stored in the map (used only by the
termination measure of the closure loop). -/
def allVals : SMap → Finset String
  | [] => ∅
  | p :: rest => p.2 ∪ allVals rest

/-- Lexicographic code-point comparison of two strings as character
lists: the order in which Rust `Vec::sort` arranges `String`s (UTF-8
byte order and code-point order agree). -/
def strLeB : List Char → List Char → Bool
  | [], _ => true
  | _ :: _, [] => false
  | a :: as, b :: bs => if a.toNat = b.toNat then strLeB as bs else decide (a.toNat < b.toNat)

/-- The sorting relation: `a` precedes `b` in Rust `String` order. -/
def strLeR (a b : String) : Prop := strLeB a.data b.data = true

instance : DecidableRel strLeR := fun _ _ => inferInstanceAs (Decidable (_ = true))

theorem charToNat_inj {a b : Char} (h : a.toNat = b.toNat) : a = b := by
  have h2 : Char.ofNat a.toNat = Char.ofNat b.toNat := congrArg _ h
  rwa [Char.ofNat_toNat, Char.ofNat_toNat] at h2

theorem strLeB_total : ∀ x y, strLeB x y = true ∨ strLeB y x = true := by
  intro x
  induction x with
  | nil => intro y; left; rfl
  | cons a as ih =>
    intro y
    cases y with
    | nil => right; rfl
    | cons b bs =>
      by_cases h : a.toNat = b.toNat
      · rcases ih bs with hl | hr
        · left; simp [strLeB, h, hl]
        · right; simp [strLeB, h.symm, hr]
      · by_cases h2 : a.toNat < b.toNat
        · left; simp [strLeB, h, h2]
        · right
          have hne : b.toNat ≠ a.toNat := fun he => h he.symm
          simp [strLeB, hne]
          omega

theorem strLeB_trans : ∀ x y z, strLeB x y = true → strLeB y z = true →
    strLeB x z = true := by
  intro x
  induction x with
  | nil => intro y z _ _; rfl
  | cons a as ih =>
    intro y z hxy hyz
    cases y with
    | nil => simp [strLeB] at hxy
    | cons b bs =>
      cases z with
      | nil => simp [strLeB] at hyz
      | cons c cs =>
        by_cases hab : a.toNat = b.toNat <;> by_cases hbc : b.toNat = c.toNat
        · simp only [strLeB, hab, if_pos rfl] at hxy
          simp only [strLeB, hbc, if_pos rfl] at hyz
          simp [strLeB, hab.trans hbc, ih bs cs hxy hyz]
        · simp only [strLeB, if_neg hbc] at hyz
          have : a.toNat ≠ c.toNat := fun he => hbc (hab ▸ he)
          simp only [strLeB, if_neg this]
          simp only [decide_eq_true_eq] at hyz ⊢
          omega
        · simp only [strLeB, if_neg hab] at hxy
          have : a.toNat ≠ c.toNat := fun he => hab (hbc ▸ he)
          simp only [strLeB, if_neg this]
          simp only [decide_eq_true_eq] at hxy ⊢
          omega
        · simp only [strLeB, if_neg hab] at hxy
          simp only [strLeB, if_neg hbc] at hyz
          simp only [decide_eq_true_eq] at hxy hyz
          by_cases hac : a.toNat = c.toNat
          · omega
          · simp only [strLeB, if_neg hac, decide_eq_true_eq]
            omega

theorem strLeB_antisymm : ∀ x y, strLeB x y = true → strLeB y x = true → x = y := by
  intro x
  induction x with
  | nil =>
    intro y _ hyx
    cases y with
    | nil => rfl
    | cons b bs => simp [strLeB] at hyx
  | cons a as ih =>
    intro y hxy hyx
    cases y with
    | nil => simp [strLeB] at hxy
    | cons b bs =>
      by_cases hab : a.toNat = b.toNat
      · simp only [strLeB, hab, if_pos rfl] at hxy
        simp only [strLeB, hab.symm, if_pos rfl] at hyx
        rw [charToNat_inj hab, ih bs hxy hyx]
      · have hba : b.toNat ≠ a.toNat := fun he => hab he.symm
        simp only [strLeB, if_neg hab, decide_eq_true_eq] at hxy
        simp only [strLeB, if_neg hba, decide_eq_true_eq] at hyx
        omega

instance : IsTotal String strLeR := ⟨fun a b => strLeB_total a.data b.data⟩

instance : IsTrans String strLeR := ⟨fun a b c => strLeB_trans a.data b.data c.data⟩

instance : IsAntisymm String strLeR :=
  ⟨fun a b h1 h2 => by
    cases a; cases b
    exact congrArg String.mk (strLeB_antisymm _ _ h1 h2)⟩

/-- Ascending sorted list of a set of names: the deterministic model
of iterating a `HashSet<String>` into a `Vec` that is then `sort`ed
(insertion sort, lifted to the multiset: any two permutations sort to
the same list). -/
def sortStr (s : Finset String) : List String :=
  Quotient.liftOn s.val (List.insertionSort strLeR)
    (fun l1 l2 h =>
      List.eq_of_perm_of_sorted
        ((List.perm_insertionSort _ l1).trans (h.trans (List.perm_insertionSort _ l2).symm))
        (List.sorted_insertionSort _ l1) (List.sorted_insertionSort _ l2))

/-! ### The closure builder (`build_type_relations`)

The Rust function builds `deps_graph` / `users_graph` from the
immediate relations, then repeats full relaxation passes while any set
changed; the `changed` flag is shared by both graphs and an insertion
is performed whenever the flag is already set. -/

/-- The two adjacency maps of `build_type_relations`. -/
structure Graphs where
  deps : SMap
  users : SMap
deriving DecidableEq

/-- One relaxation value: the current set of a key unioned with the
currently known sets of all its direct neighbours (the inner
`for dep in &current_deps` loop). -/
def relaxed (m : SMap) (n : String) : Finset String :=
  lookupD m n ∪ (lookupD m n).biUnion (fun d => lookupD m d)

/-- The body of the `for relation in relations.iter()` loop of the
fixed-point computation: relax the dependency set, then the user set,
of one relation's name; an insertion happens whenever the shared
`changed` flag is set (inserting the union is equivalent to the
source's element-wise `insert` calls). -/
def relStep (p : Graphs × Bool) (r : TypeRelations) : Graphs × Bool :=
  let g := p.1
  let cur := lookupD g.deps r.type_name
  let u := relaxed g.deps r.type_name
  let ch1 := p.2 || decide (¬ u ⊆ cur)
  let deps' := if ch1 then insrt g.deps r.type_name u else g.deps
  let curU := lookupD g.users r.type_name
  let v := relaxed g.users r.type_name
  let ch2 := ch1 || decide (¬ v ⊆ curU)
  let users' := if ch2 then insrt g.users r.type_name v else g.users
  (⟨deps', users'⟩, ch2)

/-- One full pass of the `while changed` loop (`changed` reset to
`false`, then every relation relaxed in order). -/
def clPass (rels : List TypeRelations) (g : Graphs) : Graphs × Bool :=
  rels.foldl relStep (g, false)

/-- The set of type names of the input relations. -/
def relNames (rels : List TypeRelations) : Finset String :=
  (rels.map (fun r => r.type_name)).toFinset

/-- Size bound used by the termination measure: the number of names
stored anywhere in either graph. -/
def gBound (g : Graphs) : Nat := (allVals g.deps ∪ allVals g.users).card

/-- Termination measure of the `while changed` loop: total remaining
room for growth of the tracked sets. -/
def gMeasure (rels : List TypeRelations) (g : Graphs) : Nat :=
  Finset.sum (relNames rels) (fun n =>
    (gBound g - (lookupD g.deps n).card) + (gBound g - (lookupD g.users n).card))

theorem lookupD_insrt (m : SMap) (k k' : String) (v : Finset String) :
    lookupD (insrt m k v) k' = if k = k' then v else lookupD m k' := by
  induction m with
  | nil => by_cases h : k = k' <;> simp [insrt, lookupD, h]
  | cons p rest ih =>
    by_cases h : p.1 = k
    · simp only [insrt, if_pos h]
      by_cases h' : k = k'
      · simp [lookupD, h']
      · have hpk' : p.1 ≠ k' := fun hh => h' (h.symm.trans hh)
        simp [lookupD, h', hpk']
    · simp only [insrt, if_neg h, lookupD]
      by_cases h'' : p.1 = k'
      · have hkk' : k ≠ k' := fun hh => h (h''.trans hh.symm)
        simp [h'', hkk']
      · simp [h'', ih]

theorem lookupD_subset_allVals (m : SMap) (k : String) : lookupD m k ⊆ allVals m := by
  induction m with
  | nil => simp [lookupD]
  | cons p rest ih =>
    by_cases h : p.1 = k
    · simp only [lookupD, h, if_pos rfl, allVals]
      exact Finset.subset_union_left
    · simp only [lookupD, h, if_neg h, allVals]
      exact ih.trans Finset.subset_union_right

theorem allVals_insrt (m : SMap) (k : String) (v : Finset String)
    (h : lookupD m k ⊆ v) : allVals (insrt m k v) = allVals m ∪ v := by
  induction m with
  | nil => simp [insrt, allVals, lookupD]
  | cons p rest ih =>
    by_cases hp : p.1 = k
    · simp only [insrt, if_pos hp, allVals]
      simp only [lookupD, if_pos hp] at h
      apply Finset.ext
      intro x
      simp only [Finset.mem_union]
      constructor
      · rintro (hx | hx)
        · exact Or.inr hx
        · exact Or.inl (Or.inr hx)
      · rintro ((hx | hx) | hx)
        · exact Or.inl (h hx)
        · exact Or.inr hx
        · exact Or.inl hx
    · simp only [insrt, if_neg hp, allVals]
      simp only [lookupD, if_neg hp] at h
      rw [ih h, Finset.union_assoc]

theorem lookupD_subset_relaxed (m : SMap) (n : String) :
    lookupD m n ⊆ relaxed m n := Finset.subset_union_left

theorem relaxed_subset_allVals (m : SMap) (n : String) :
    relaxed m n ⊆ allVals m := by
  unfold relaxed
  intro x hx
  rcases Finset.mem_union.mp hx with h | h
  · exact lookupD_subset_allVals m n h
  · rcases Finset.mem_biUnion.mp h with ⟨d, _, hd⟩
    exact lookupD_subset_allVals m d hd

/-! Structural facts about one `relStep`, feeding the termination
measure of the `while changed` loop. -/

theorem relStep_allVals (p : Graphs × Bool) (r : TypeRelations) :
    allVals (relStep p r).1.deps = allVals p.1.deps ∧
    allVals (relStep p r).1.users = allVals p.1.users := by
  unfold relStep
  constructor
  · dsimp only
    split
    · rw [allVals_insrt _ _ _ (lookupD_subset_relaxed _ _)]
      exact Finset.union_eq_left.mpr (relaxed_subset_allVals _ _)
    · rfl
  · dsimp only
    split
    · rw [allVals_insrt _ _ _ (lookupD_subset_relaxed _ _)]
      exact Finset.union_eq_left.mpr (relaxed_subset_allVals _ _)
    · rfl

theorem relStep_lookup_mono (p : Graphs × Bool) (r : TypeRelations) (n : String) :
    lookupD p.1.deps n ⊆ lookupD (relStep p r).1.deps n ∧
    lookupD p.1.users n ⊆ lookupD (relStep p r).1.users n := by
  unfold relStep
  constructor
  · dsimp only
    split
    · rw [lookupD_insrt]
      split
      · next h => exact h ▸ lookupD_subset_relaxed _ _
      · exact Finset.Subset.refl _
    · exact Finset.Subset.refl _
  · dsimp only
    split
    · rw [lookupD_insrt]
      split
      · next h => exact h ▸ lookupD_subset_relaxed _ _
      · exact Finset.Subset.refl _
    · exact Finset.Subset.refl _

theorem relStep_flag_mono (p : Graphs × Bool) (r : TypeRelations)
    (h : p.2 = true) : (relStep p r).2 = true := by
  unfold relStep
  simp [h]

theorem foldl_relStep_flag_mono (l : List TypeRelations) (p : Graphs × Bool)
    (h : p.2 = true) : (l.foldl relStep p).2 = true := by
  induction l generalizing p with
  | nil => exact h
  | cons r rest ih => exact ih (relStep p r) (relStep_flag_mono p r h)

theorem relStep_false (g : Graphs) (r : TypeRelations)
    (h : (relStep (g, false) r).2 = false) : relStep (g, false) r = (g, false) := by
  unfold relStep at h ⊢
  simp only [Bool.false_or, Bool.or_eq_false_iff, decide_eq_false_iff_not, not_not] at h
  simp [h.1, h.2]

theorem relStep_false_fix (g : Graphs) (r : TypeRelations)
    (h : (relStep (g, false) r).2 = false) :
    relaxed g.deps r.type_name ⊆ lookupD g.deps r.type_name ∧
    relaxed g.users r.type_name ⊆ lookupD g.users r.type_name := by
  unfold relStep at h
  simp only [Bool.false_or, Bool.or_eq_false_iff, decide_eq_false_iff_not, not_not] at h
  exact h

/-- Total tracked size over the names of the input relations. -/
def cardSum (rels : List TypeRelations) (g : Graphs) : Nat :=
  Finset.sum (relNames rels) (fun n =>
    (lookupD g.deps n).card + (lookupD g.users n).card)

theorem cardSum_mono (rels : List TypeRelations) {g g' : Graphs}
    (h : ∀ n, lookupD g.deps n ⊆ lookupD g'.deps n ∧
        lookupD g.users n ⊆ lookupD g'.users n) :
    cardSum rels g ≤ cardSum rels g' := by
  refine Finset.sum_le_sum (fun n _ => ?_)
  exact Nat.add_le_add (Finset.card_le_card (h n).1) (Finset.card_le_card (h n).2)

theorem relStep_true_growth (rels : List TypeRelations) (g : Graphs)
    (r : TypeRelations) (hr : r ∈ rels)
    (h : (relStep (g, false) r).2 = true) :
    cardSum rels g < cardSum rels (relStep (g, false) r).1 := by
  have hmem : r.type_name ∈ relNames rels := by
    simp only [relNames, List.mem_toFinset, List.mem_map]
    exact ⟨r, hr, rfl⟩
  refine Finset.sum_lt_sum
    (fun n _ => Nat.add_le_add (Finset.card_le_card (relStep_lookup_mono (g, false) r n).1)
      (Finset.card_le_card (relStep_lookup_mono (g, false) r n).2)) ⟨r.type_name, hmem, ?_⟩
  have hflag : decide (¬ relaxed g.deps r.type_name ⊆ lookupD g.deps r.type_name) = true ∨
      decide (¬ relaxed g.users r.type_name ⊆ lookupD g.users r.type_name) = true := by
    unfold relStep at h
    simp only [Bool.false_or, Bool.or_eq_true] at h
    tauto
  rcases hflag with hd | hu
  · have hd' : ¬ relaxed g.deps r.type_name ⊆ lookupD g.deps r.type_name :=
      of_decide_eq_true hd
    have hstrict : (lookupD g.deps r.type_name).card <
        (lookupD (relStep (g, false) r).1.deps r.type_name).card := by
      have : lookupD (relStep (g, false) r).1.deps r.type_name =
          relaxed g.deps r.type_name := by
        unfold relStep
        simp only [Bool.false_or, hd, Bool.true_or, if_pos]
        rw [lookupD_insrt]
        simp
      rw [this]
      exact Finset.card_lt_card (Finset.ssubset_iff_subset_ne.mpr
        ⟨lookupD_subset_relaxed _ _, fun he => hd' (he ▸ le_refl _)⟩)
    exact Nat.add_lt_add_of_lt_of_le hstrict
      (Finset.card_le_card (relStep_lookup_mono (g, false) r r.type_name).2)
  · have hu' : ¬ relaxed g.users r.type_name ⊆ lookupD g.users r.type_name :=
      of_decide_eq_true hu
    have hstrict : (lookupD g.users r.type_name).card <
        (lookupD (relStep (g, false) r).1.users r.type_name).card := by
      have : lookupD (relStep (g, false) r).1.users r.type_name =
          relaxed g.users r.type_name := by
        unfold relStep
        simp only [Bool.false_or, hu, Bool.or_true, if_pos]
        rw [lookupD_insrt]
        simp
      rw [this]
      exact Finset.card_lt_card (Finset.ssubset_iff_subset_ne.mpr
        ⟨lookupD_subset_relaxed _ _, fun he => hu' (he ▸ le_refl _)⟩)
    exact Nat.add_lt_add_of_le_of_lt
      (Finset.card_le_card (relStep_lookup_mono (g, false) r r.type_name).1) hstrict

theorem foldl_relStep_lookup_mono (l : List TypeRelations) (p : Graphs × Bool) (n : String) :
    lookupD p.1.deps n ⊆ lookupD (l.foldl relStep p).1.deps n ∧
    lookupD p.1.users n ⊆ lookupD (l.foldl relStep p).1.users n := by
  induction l generalizing p with
  | nil => exact ⟨Finset.Subset.refl _, Finset.Subset.refl _⟩
  | cons r rest ih =>
    simp only [List.foldl_cons]
    exact ⟨(relStep_lookup_mono p r n).1.trans (ih (relStep p r)).1,
           (relStep_lookup_mono p r n).2.trans (ih (relStep p r)).2⟩

theorem foldl_relStep_allVals (l : List TypeRelations) (p : Graphs × Bool) :
    allVals (l.foldl relStep p).1.deps = allVals p.1.deps ∧
    allVals (l.foldl relStep p).1.users = allVals p.1.users := by
  induction l generalizing p with
  | nil => exact ⟨rfl, rfl⟩
  | cons r rest ih =>
    simp only [List.foldl_cons]
    exact ⟨(ih (relStep p r)).1.trans (relStep_allVals p r).1,
           (ih (relStep p r)).2.trans (relStep_allVals p r).2⟩

theorem foldl_relStep_growth (rels : List TypeRelations) :
    ∀ (l : List TypeRelations), (∀ r ∈ l, r ∈ rels) → ∀ (g : Graphs),
    (l.foldl relStep (g, false)).2 = true →
    cardSum rels g < cardSum rels (l.foldl relStep (g, false)).1 := by
  intro l
  induction l with
  | nil => intro _ g h; simp [List.foldl_nil] at h
  | cons r rest ih =>
    intro hl g h
    simp only [List.foldl_cons] at h ⊢
    by_cases hc : (relStep (g, false) r).2 = true
    · have h1 := relStep_true_growth rels g r (hl r (by simp)) hc
      have h2 : cardSum rels (relStep (g, false) r).1 ≤
          cardSum rels (rest.foldl relStep (relStep (g, false) r)).1 :=
        cardSum_mono rels (fun n => foldl_relStep_lookup_mono rest (relStep (g, false) r) n)
      exact lt_of_lt_of_le h1 h2
    · have hfalse : (relStep (g, false) r).2 = false := by
        revert hc; cases (relStep (g, false) r).2 <;> simp
      rw [relStep_false g r hfalse] at h ⊢
      exact ih (fun r' hr' => hl r' (List.mem_cons_of_mem r hr')) g h

theorem gMeasure_add_cardSum (rels : List TypeRelations) (g : Graphs) :
    gMeasure rels g + cardSum rels g = (relNames rels).card * (2 * gBound g) := by
  unfold gMeasure cardSum
  rw [← Finset.sum_add_distrib]
  have hpt : ∀ n ∈ relNames rels,
      ((gBound g - (lookupD g.deps n).card) + (gBound g - (lookupD g.users n).card)) +
        ((lookupD g.deps n).card + (lookupD g.users n).card) = 2 * gBound g := by
    intro n _
    have h1 : (lookupD g.deps n).card ≤ gBound g :=
      Finset.card_le_card ((lookupD_subset_allVals _ _).trans Finset.subset_union_left)
    have h2 : (lookupD g.users n).card ≤ gBound g :=
      Finset.card_le_card ((lookupD_subset_allVals _ _).trans Finset.subset_union_right)
    omega
  rw [Finset.sum_congr rfl hpt, Finset.sum_const, smul_eq_mul]

theorem clPass_measure (rels : List TypeRelations) (g : Graphs)
    (h : (clPass rels g).2 = true) :
    gMeasure rels (clPass rels g).1 < gMeasure rels g := by
  have hgrow := foldl_relStep_growth rels rels (fun _ hr => hr) g h
  have hAV := foldl_relStep_allVals rels (g, false)
  have hB : gBound (clPass rels g).1 = gBound g := by
    unfold gBound clPass
    rw [hAV.1, hAV.2]
  have hid1 := gMeasure_add_cardSum rels g
  have hid2 := gMeasure_add_cardSum rels (clPass rels g).1
  rw [hB] at hid2
  unfold clPass at hgrow hid2 ⊢
  omega

/-- Fuelled form of the `while changed` loop of
`build_type_relations`; with fuel above `gMeasure` the fuel is never
exhausted (`closeLoopF_irrel`), so `closeLoop` below satisfies the
exact loop equation `closeLoop_eq`. -/
def closeLoopF : Nat → List TypeRelations → Graphs → Graphs
  | 0, _, g => g
  | fuel + 1, rels, g =>
    if (clPass rels g).2 = true then closeLoopF fuel rels (clPass rels g).1
    else (clPass rels g).1

theorem closeLoopF_irrel (rels : List TypeRelations) :
    ∀ (f1 f2 : Nat) (g : Graphs), gMeasure rels g < f1 → gMeasure rels g < f2 →
    closeLoopF f1 rels g = closeLoopF f2 rels g := by
  intro f1
  induction f1 with
  | zero => intro f2 g h1 _; omega
  | succ f1' ih =>
    intro f2 g h1 h2
    match f2, h2 with
    | f2' + 1, h2 =>
      show (if (clPass rels g).2 = true then closeLoopF f1' rels (clPass rels g).1
            else (clPass rels g).1) =
           (if (clPass rels g).2 = true then closeLoopF f2' rels (clPass rels g).1
            else (clPass rels g).1)
      split
      · next h =>
        have hlt := clPass_measure rels g h
        exact ih f2' (clPass rels g).1 (by omega) (by omega)
      · rfl

/-- The `while changed` loop of `build_type_relations`: repeat full
passes until one makes no change; termination comes from the strict
growth of the tracked sets inside the fixed universe of stored names
(`gMeasure` strictly decreases on every changing pass). -/
def closeLoop (rels : List TypeRelations) (g : Graphs) : Graphs :=
  closeLoopF (gMeasure rels g + 1) rels g

/-- The defining equation of the `while changed` loop: run one pass;
if it changed anything, loop on the updated graphs, otherwise the loop
exits with the graphs of that pass. -/
theorem closeLoop_eq (rels : List TypeRelations) (g : Graphs) :
    closeLoop rels g =
      if (clPass rels g).2 = true then closeLoop rels (clPass rels g).1
      else (clPass rels g).1 := by
  show (if (clPass rels g).2 = true then closeLoopF (gMeasure rels g) rels (clPass rels g).1
        else (clPass rels g).1) = _
  split
  · next h =>
    exact closeLoopF_irrel rels (gMeasure rels g) (gMeasure rels (clPass rels g).1 + 1)
      (clPass rels g).1 (clPass_measure rels g h) (Nat.lt_succ_self _)
  · rfl

/-- Initial `deps_graph`: for every relation, extend the entry of its
name with its immediate dependencies. -/
def depsInit (rels : List TypeRelations) : SMap :=
  rels.foldl (fun m r =>
    insrt m r.type_name (lookupD m r.type_name ∪ r.depends_on.toFinset)) []

/-- Initial `users_graph`: for every relation and each of its
dependencies, add the relation's name to the dependency's entry. -/
def usersInit (rels : List TypeRelations) : SMap :=
  rels.foldl (fun m r =>
    r.depends_on.foldl (fun m' d => insrt m' d (insert r.type_name (lookupD m' d))) m) []

def initGraphs (rels : List TypeRelations) : Graphs :=
  ⟨depsInit rels, usersInit rels⟩

/-- `build_type_relations`: build the two graphs, run the fixed-point
loop, then write the closed sets back into the relation list (a
dependency entry always exists; a user entry is rewritten only when the
key is present, otherwise the scan-time `used_by` is kept). -/
def closeUpd (rels : List TypeRelations) (r : TypeRelations) : TypeRelations :=
  let g := closeLoop rels (initGraphs rels)
  { r with
    depends_on :=
      if hasKey g.deps r.type_name then sortStr (lookupD g.deps r.type_name)
      else r.depends_on
    used_by :=
      if hasKey g.users r.type_name then sortStr (lookupD g.users r.type_name)
      else r.used_by }

def buildTypeRelations (rels : List TypeRelations) : List TypeRelations :=
  rels.map (closeUpd rels)

/-! ### The context-tracking scanner (`analyze_type_relations`) -/

/-- Association-list model of the `HashMap<String, Vec<String>>`
`traits_map`. -/
def lookupT : List (String × List String) → String → Option (List String)
  | [], _ => none
  | p :: rest, k => if p.1 = k then some p.2 else lookupT rest k

def insrtT : List (String × List String) → String → List String →
    List (String × List String)
  | [], k, v => [(k, v)]
  | p :: rest, k, v => if p.1 = k then (k, v) :: rest else p :: insrtT rest k v

/-- `HashMap::get` returning the optional stored set (used by
`add_type_relations`, which distinguishes a missing entry). -/
def lookupO : SMap → String → Option (Finset String)
  | [], _ => none
  | p :: rest, k => if p.1 = k then some p.2 else lookupO rest k

/-- The mutable state of the second pass of `analyze_type_relations`:
the produced relations, the open type context, the dependency
accumulator, the traits map, the usage map and the processed-name set. -/
structure ScanSt where
  rels : List TypeRelations
  current : Option String
  acc : Finset String
  traitsM : List (String × List String)
  usageM : SMap
  processed : Finset String

def initScan : ScanSt := ⟨[], none, ∅, [], [], ∅⟩

/-- The derive body split on commas with every piece trimmed. -/
def deriveTraits (body : String) : List String :=
  (splitCh ',' body.data).map (fun p => String.mk (trimChars p))

/-- `add_type_relations`: finalize one type into a `TypeRelations`
record from the accumulated state (dependencies filtered to the type
universe; a missing usage entry yields an empty `used_by`). -/
def addTypeRelations (proj : Finset String) (rels : List TypeRelations)
    (name : String) (acc : Finset String)
    (traitsM : List (String × List String)) (usageM : SMap) :
    List TypeRelations :=
  rels ++ [{ type_name := name
           , implemented_traits := (lookupT traitsM name).getD []
           , used_by := match lookupO usageM name with
                        | some s => sortStr s
                        | none => []
           , depends_on := sortStr (acc.filter (fun d => d ∈ proj)) }]

/-- Derive lookahead on the trimmed line: when the line opens a derive
annotation, the derive body is recorded for the type declared on the
very next raw line (if any). -/
def deriveStep (st : ScanSt) (line : List Char) (nextRaw : Option (List Char)) : ScanSt :=
  if ("#[derive".data).isPrefixOf line then
    match nextRaw with
    | some nl =>
      match typeDeclCapture (trimChars nl) with
      | some tname =>
        match deriveBody line with
        | some body => { st with traitsM := insrtT st.traitsM tname (deriveTraits body) }
        | none => st
      | none => st
    | none => st
  else st

/-- Declaration handling: a first occurrence finalizes the open
context and becomes the new context; a re-declaration changes
nothing. -/
def declStep (proj : Finset String) (st : ScanSt) (line : List Char) : ScanSt :=
  match typeDeclCapture line with
  | some tname =>
    if tname ∈ st.processed then st
    else
      let stf :=
        match st.current with
        | some prev =>
          { st with
            rels := addTypeRelations proj st.rels prev st.acc st.traitsM st.usageM
            acc := ∅ }
        | none => st
      { stf with current := some tname, processed := insert tname stf.processed }
  | none => st

/-- Dependency extraction against the open context: every reference
the six patterns capture that is a declared type other than the
current one is accumulated and recorded in the usage map. -/
def depStep (proj : Finset String) (st : ScanSt) (line : List Char) : ScanSt :=
  match st.current with
  | some cur =>
    (extractRefs line).foldl (fun s t =>
      if t ∈ proj ∧ t ≠ cur then
        { s with acc := insert t s.acc
               , usageM := insrt s.usageM t (insert cur (lookupD s.usageM t)) }
      else s) st
  | none => st

/-- One iteration of the scanning loop: derive lookahead on the
trimmed line, then declaration handling (first occurrence wins), then
dependency extraction against the open context. -/
def scanLine (proj : Finset String) (st : ScanSt) (raw : List Char)
    (nextRaw : Option (List Char)) : ScanSt :=
  let line := trimChars raw
  depStep proj (declStep proj (deriveStep st line nextRaw) line) line

/-- The line loop, carrying the one-line lookahead. -/
def scanLines (proj : Finset String) : ScanSt → List (List Char) → ScanSt
  | st, [] => st
  | st, l :: rest => scanLines proj (scanLine proj st l rest.head?) rest

/-- First pass of `analyze_type_relations`: the set of declared type
names of the file. -/
def projectTypes (ls : List (List Char)) : Finset String :=
  ls.foldl (fun s l =>
    match typeDeclCapture (trimChars l) with
    | some n => insert n s
    | none => s) ∅

/-- The relation list before the closure step: run the scanner and
finalize the context still open after the last line. -/
def scanRelations (content : String) : List TypeRelations :=
  let ls := rustLines content
  let proj := projectTypes ls
  let st := scanLines proj initScan ls
  match st.current with
  | some last => addTypeRelations proj st.rels last st.acc st.traitsM st.usageM
  | none => st.rels

/-- `analyze_type_relations`: the scan followed by
`build_type_relations`. -/
def analyzeTypeRelations (content : String) : List TypeRelations :=
  buildTypeRelations (scanRelations content)

/-! ### The summary generator (`generate_summary`) -/

/-- `is_match` of `^LIT(\w+)`-shaped summary rules: the literal prefix
followed by at least one word character. -/
def litThenWord (lit : String) (cs : List Char) : Bool :=
  lit.data.isPrefixOf cs &&
    (match cs.drop lit.data.length with
     | c :: _ => isWordChar c
     | [] => false)

/-- `is_match` of `^impl\s+(\w+)`. -/
def implMatch (cs : List Char) : Bool :=
  ("impl".data).isPrefixOf cs &&
    (match dropWs1 (cs.drop 4) with
     | some (c :: _) => isWordChar c
     | _ => false)

/-- `is_match` of `^\[.*\]`: an opening bracket at the start with some
closing bracket after it. -/
def sectionMatch : List Char → Bool
  | '[' :: r => r.any (fun c => c = ']')
  | _ => false

/-- The fixed ordered rule table of `generate_summary`; the
`^///\s*(.*)$` and `^//!\s*(.*)$` rules match exactly the lines
starting with their comment marker. -/
def summaryRules : List ((List Char → Bool) × String) :=
  [ (fun cs => ("///".data).isPrefixOf cs, "Documentation: ")
  , (fun cs => ("//!".data).isPrefixOf cs, "Module documentation: ")
  , (litThenWord "pub fn ", "Public method: ")
  , (litThenWord "fn ", "Private method: ")
  , (litThenWord "pub struct ", "Public struct: ")
  , (litThenWord "pub enum ", "Public enum: ")
  , (litThenWord "pub trait ", "Public trait: ")
  , (implMatch, "Implementation: ")
  , (sectionMatch, "Section: ") ]

/-- `generate_summary`, transliterated: the first five lines after a
`File start:` marker, then for every rule in order a sweep over all
lines appending the label and the trimmed line for each match. -/
def generateSummary (content : String) : String :=
  let ls := rustLines content
  let s0 :=
    if ls.isEmpty then ""
    else (ls.take 5).foldl (fun acc l => acc ++ (String.mk l ++ "\n")) "File start:\n"
  summaryRules.foldl (fun acc rule =>
    ls.foldl (fun acc2 l =>
      if rule.1 l then acc2 ++ (rule.2 ++ (String.mk (trimChars l) ++ "\n")) else acc2)
      acc) s0

/-! ### The signature extractor (`analyze_method_signatures`)

Rust pattern (`method_pattern`):
`(?P<vis>pub(?:\([^)]+\))?)?\s*fn\s+(?P<name>\w+)\s*<?\s*(?P<params>[^>]*?)>\s*\((?P<args>[^)]*)\)(?:\s*->\s*(?P<ret>[^{]+))?`.
Note that the `<` before the params group is optional but the `>` after
it is mandatory, so a match requires a literal `>` before the argument
list; since neither `\s*` nor `<?` nor `[^>]*?` can consume a `>`, the
`>` consumed is always the first `>` after the method name, and a
failure later in the pattern cannot move it. -/

/-- Leftmost application of a positional matcher (`Regex::captures`
over an unanchored pattern). -/
def firstMatch {α : Type} (f : List Char → Option α) : List Char → Option α
  | [] => none
  | cs@(_ :: rest) =>
    match f cs with
    | some a => some a
    | none => firstMatch f rest

/-- The named capture groups of one `method_pattern` match. -/
structure MethodRaw where
  vis : Option String
  name : String
  args : String
  ret : Option String
deriving DecidableEq, Repr

/-- Position after the first `>` of the suffix, if any. -/
def gtSplit (cs : List Char) : Option (List Char) :=
  match cs.dropWhile (fun c => c ≠ '>') with
  | '>' :: r => some r
  | _ => none

/-- `\s*\((?P<args>[^)]*)\)`: the argument-list text up to the first
closing parenthesis. -/
def argsParse (cs : List Char) : Option (String × List Char) :=
  match cs.dropWhile Char.isWhitespace with
  | '(' :: r =>
    let inner := r.takeWhile (fun c => c ≠ ')')
    match r.drop inner.length with
    | ')' :: r2 => some (String.mk inner, r2)
    | _ => none
  | _ => none

/-- The optional `(?:\s*->\s*(?P<ret>[^{]+))?` tail; when everything
after the arrow is whitespace, backtracking hands the last whitespace
character to the mandatory `[^{]+` group. -/
def retParse (cs : List Char) : Option String :=
  let t := cs.dropWhile Char.isWhitespace
  if ("->".data).isPrefixOf t then
    let t2 := t.drop 2
    let w := t2.takeWhile Char.isWhitespace
    let body := (t2.drop w.length).takeWhile (fun c => c ≠ '\x7b')
    if body ≠ [] then some (String.mk body)
    else
      match w.getLast? with
      | some c => some (String.mk [c])
      | none => none
  else none

/-- The pattern after the visibility group, applied at a fixed start:
`\s*fn\s+name...>\s*\(args\)` with the optional return tail. -/
def methodCore (vis : Option String) (r0 : List Char) : Option MethodRaw :=
  let r := r0.dropWhile Char.isWhitespace
  if ("fn".data).isPrefixOf r then
    match dropWs1 (r.drop 2) with
    | some r2 =>
      match r2 with
      | c :: _ =>
        if isWordChar c then
          match gtSplit (r2.dropWhile isWordChar) with
          | some r4 =>
            match argsParse r4 with
            | some (args, r5) =>
              some ⟨vis, String.mk (r2.takeWhile isWordChar), args, retParse r5⟩
            | none => none
          | none => none
        else none
      | [] => none
    | none => none
  else none

/-- The `pub(...)` form of the visibility group. -/
def visParen (cs : List Char) : Option (String × List Char) :=
  if ("pub".data).isPrefixOf cs then
    match cs.drop 3 with
    | '(' :: r =>
      let inner := r.takeWhile (fun c => c ≠ ')')
      if inner.isEmpty then none
      else
        match r.drop inner.length with
        | ')' :: r2 => some (String.mk ("pub(".data ++ inner ++ [')']), r2)
        | _ => none
    | _ => none
  else none

/-- One anchored attempt of `method_pattern`: the greedy optional
visibility group tries `pub(...)`, then `pub`, then nothing. -/
def methodAt (cs : List Char) : Option MethodRaw :=
  match (match visParen cs with
         | some p => methodCore (some p.1) p.2
         | none => none) with
  | some m => some m
  | none =>
    match (if ("pub".data).isPrefixOf cs then methodCore (some "pub") (cs.drop 3)
           else none) with
    | some m => some m
    | none => methodCore none cs

/-- The visibility mapping of `analyze_method_signatures`. -/
def visibilityOf (vis : Option String) : Visibility :=
  match vis with
  | some v =>
    if v = "pub" then Visibility.Public
    else if v = "pub(crate)" then Visibility.PublicCrate
    else Visibility.Private
  | none => Visibility.Private

/-- Build the `MethodSignature` from the captures: the argument text
split naively on every comma with each piece trimmed, the return text
trimmed with `()` as the default. -/
def sigOfRaw (m : MethodRaw) : MethodSignature :=
  { name := m.name
  , params := (splitCh ',' m.args.data).map (fun p => String.mk (trimChars p))
  , return_type :=
      match m.ret with
      | some r => String.mk (trimChars r.data)
      | none => "()"
  , visibility := visibilityOf m.vis }

/-- `analyze_method_signatures`: first match of `method_pattern` on
each line. -/
def analyzeMethodSignatures (content : String) : List MethodSignature :=
  (rustLines content).filterMap (fun l => (firstMatch methodAt l).map sigOfRaw)

/-! ### The configuration extractor (`analyze_configuration`) -/

/-- `const\s+([A-Z_][A-Z0-9_]*)\s*:\s*([^=]+)\s*=\s*([^;]+);` after the
optional `pub` prefix: the three raw capture groups.  When only
whitespace separates the `:` from the `=`, the greedy `\s*` before the
mandatory `[^=]+` group backtracks and hands its last whitespace
character to the group (the same backtracking the pattern performs for
group 3 before the `;`). -/
def constCore (cs : List Char) : Option (String × String × String) :=
  if ("const".data).isPrefixOf cs then
    match dropWs1 (cs.drop 5) with
    | some r =>
      match r with
      | c :: rest =>
        if c.isUpper || c = '_' then
          let nmTail := rest.takeWhile (fun ch => ch.isUpper || ch.isDigit || ch = '_')
          let name := String.mk (c :: nmTail)
          match (rest.drop nmTail.length).dropWhile Char.isWhitespace with
          | ':' :: r3 =>
            let w2 := r3.takeWhile Char.isWhitespace
            let r4 := r3.drop w2.length
            let g2raw := r4.takeWhile (fun ch => ch ≠ '=')
            match (if g2raw.isEmpty then
                     match w2.getLast? with
                     | some cw => some [cw]
                     | none => none
                   else some g2raw) with
            | some g2 =>
              match r4.drop g2raw.length with
              | '=' :: r5 =>
                let w := r5.takeWhile Char.isWhitespace
                let afterW := r5.drop w.length
                let g3 := afterW.takeWhile (fun ch => ch ≠ ';')
                match afterW.drop g3.length with
                | ';' :: _ =>
                  if g3 ≠ [] then some (name, String.mk g2, String.mk g3)
                  else
                    match w.getLast? with
                    | some cw => some (name, String.mk g2, String.mk [cw])
                    | none => none
                | _ => none
              | _ => none
            | none => none
          | _ => none
        else none
      | [] => none
    | none => none
  else none

/-- The `const_pattern` with its optional `(?:pub\s+)?` prefix. -/
def constAt (cs : List Char) : Option (String × String × String) :=
  match (match (if ("pub".data).isPrefixOf cs then dropWs1 (cs.drop 3) else none) with
         | some r => constCore r
         | none => none) with
  | some t => some t
  | none => constCore cs

/-- `feature_pattern`: `#\[cfg\(feature\s*=\s*"([^"]+)"\)\]`. -/
def featureAt (cs : List Char) : Option String :=
  if ("#[cfg(feature".data).isPrefixOf cs then
    match (cs.drop 13).dropWhile Char.isWhitespace with
    | '=' :: r2 =>
      match r2.dropWhile Char.isWhitespace with
      | '"' :: r3 =>
        let inner := r3.takeWhile (fun c => c ≠ '"')
        if inner.isEmpty then none
        else
          match r3.drop inner.length with
          | '"' :: ')' :: ']' :: _ => some (String.mk inner)
          | _ => none
      | _ => none
    | _ => none
  else none

/-- `attribute_pattern`: `#\[([^\]]+)\]`. -/
def attrAt (cs : List Char) : Option String :=
  if ("#[".data).isPrefixOf cs then
    let r := cs.drop 2
    let inner := r.takeWhile (fun c => c ≠ ']')
    if inner.isEmpty then none
    else
      match r.drop inner.length with
      | ']' :: _ => some (String.mk inner)
      | _ => none
  else none

/-- `analyze_configuration`: three independent per-line rules; the raw
attribute body is kept only when it does not start with `cfg` or
`test`. -/
def analyzeConfiguration (content : String) : Configuration :=
  (rustLines content).foldl (fun cfg l =>
    let cfg1 :=
      match firstMatch constAt l with
      | some (n, t, v) =>
        { cfg with constants :=
            cfg.constants ++ [(n, String.mk (trimChars t.data), String.mk (trimChars v.data))] }
      | none => cfg
    let cfg2 :=
      match firstMatch featureAt l with
      | some f => { cfg1 with feature_flags := cfg1.feature_flags ++ [f] }
      | none => cfg1
    match firstMatch attrAt l with
    | some a =>
      if ¬ ("cfg".data).isPrefixOf a.data ∧ ¬ ("test".data).isPrefixOf a.data then
        { cfg2 with custom_attributes := cfg2.custom_attributes ++ [a] }
      else cfg2
    | none => cfg2) ⟨[], [], []⟩

/-- `analyze_content`: the result tuple of the per-file analysis (the
`file_path` argument is only printed by the source and does not affect
the result). -/
def analyzeContent (content : String) (_filePath : String) :
    String × List TypeRelations × List MethodSignature × Configuration :=
  (generateSummary content, analyzeTypeRelations content,
   analyzeMethodSignatures content, analyzeConfiguration content)

/-! ### Characterisation of the initial graphs -/

theorem hasKey_insrt (m : SMap) (k k' : String) (v : Finset String) :
    hasKey (insrt m k v) k' = true ↔ k' = k ∨ hasKey m k' = true := by
  induction m with
  | nil => simp [insrt, hasKey, eq_comm]
  | cons p rest ih =>
    by_cases h : p.1 = k
    · simp only [insrt, if_pos h, hasKey, Bool.or_eq_true, decide_eq_true_eq]
      constructor
      · rintro (he | hk)
        · exact Or.inl he.symm
        · exact Or.inr (Or.inr hk)
      · rintro (he | (hp | hk))
        · exact Or.inl he.symm
        · exact Or.inl (h ▸ hp)
        · exact Or.inr hk
    · simp only [insrt, if_neg h, hasKey, Bool.or_eq_true, decide_eq_true_eq, ih]
      tauto

/-- Membership in the immediate dependency set of a name: some record
with that name lists the member. -/
def depsOf (rels : List TypeRelations) (n : String) : Finset String :=
  rels.foldr (fun r s => if r.type_name = n then r.depends_on.toFinset ∪ s else s) ∅

theorem mem_depsOf {rels : List TypeRelations} {n m : String} :
    m ∈ depsOf rels n ↔ ∃ r ∈ rels, r.type_name = n ∧ m ∈ r.depends_on := by
  induction rels with
  | nil => simp [depsOf]
  | cons r rest ih =>
    by_cases h : r.type_name = n
    · simp only [depsOf, List.foldr_cons, if_pos h, Finset.mem_union, List.mem_toFinset]
      rw [show (rest.foldr (fun r s => if r.type_name = n then r.depends_on.toFinset ∪ s else s) ∅) = depsOf rest n from rfl]
      simp only [ih, List.mem_cons]
      constructor
      · rintro (hm | ⟨r', hr', he, hm⟩)
        · exact ⟨r, Or.inl rfl, h, hm⟩
        · exact ⟨r', Or.inr hr', he, hm⟩
      · rintro ⟨r', hr' | hr', he, hm⟩
        · exact Or.inl (hr' ▸ hm)
        · exact Or.inr ⟨r', hr', he, hm⟩
    · simp only [depsOf, List.foldr_cons, if_neg h]
      rw [show (rest.foldr (fun r s => if r.type_name = n then r.depends_on.toFinset ∪ s else s) ∅) = depsOf rest n from rfl]
      simp only [ih, List.mem_cons]
      constructor
      · rintro ⟨r', hr', he, hm⟩
        exact ⟨r', Or.inr hr', he, hm⟩
      · rintro ⟨r', hr' | hr', he, hm⟩
        · exact absurd (hr' ▸ he) h
        · exact ⟨r', hr', he, hm⟩

/-- The names whose records use `n` directly. -/
def usersOf (rels : List TypeRelations) (n : String) : Finset String :=
  rels.foldr (fun r s => if n ∈ r.depends_on then insert r.type_name s else s) ∅

theorem mem_usersOf {rels : List TypeRelations} {n y : String} :
    y ∈ usersOf rels n ↔ ∃ r ∈ rels, r.type_name = y ∧ n ∈ r.depends_on := by
  induction rels with
  | nil => simp [usersOf]
  | cons r rest ih =>
    by_cases h : n ∈ r.depends_on
    · simp only [usersOf, List.foldr_cons, if_pos h, Finset.mem_insert]
      rw [show (rest.foldr (fun r s => if n ∈ r.depends_on then insert r.type_name s else s) ∅) = usersOf rest n from rfl]
      simp only [ih, List.mem_cons]
      constructor
      · rintro (he | ⟨r', hr', hey, hm⟩)
        · exact ⟨r, Or.inl rfl, he.symm, h⟩
        · exact ⟨r', Or.inr hr', hey, hm⟩
      · rintro ⟨r', hr' | hr', hey, hm⟩
        · exact Or.inl (hr' ▸ hey).symm
        · exact Or.inr ⟨r', hr', hey, hm⟩
    · simp only [usersOf, List.foldr_cons, if_neg h]
      rw [show (rest.foldr (fun r s => if n ∈ r.depends_on then insert r.type_name s else s) ∅) = usersOf rest n from rfl]
      simp only [ih, List.mem_cons]
      constructor
      · rintro ⟨r', hr', hey, hm⟩
        exact ⟨r', Or.inr hr', hey, hm⟩
      · rintro ⟨r', hr' | hr', hey, hm⟩
        · exact absurd (hr' ▸ hm) h
        · exact ⟨r', hr', hey, hm⟩

theorem depsInit_lookup (rels : List TypeRelations) :
    ∀ (m : SMap) (n : String),
    lookupD (rels.foldl (fun m r =>
      insrt m r.type_name (lookupD m r.type_name ∪ r.depends_on.toFinset)) m) n =
      lookupD m n ∪ depsOf rels n := by
  induction rels with
  | nil => intro m n; simp [depsOf, lookupD]
  | cons r rest ih =>
    intro m n
    simp only [List.foldl_cons]
    rw [ih]
    by_cases h : r.type_name = n
    · rw [show depsOf (r :: rest) n = r.depends_on.toFinset ∪ depsOf rest n from by
        simp [depsOf, h]]
      rw [lookupD_insrt, if_pos h, h, Finset.union_assoc]
    · rw [show depsOf (r :: rest) n = depsOf rest n from by simp [depsOf, h]]
      rw [lookupD_insrt, if_neg h]

theorem lookupD_depsInit (rels : List TypeRelations) (n : String) :
    lookupD (depsInit rels) n = depsOf rels n := by
  have := depsInit_lookup rels [] n
  simpa [depsInit, lookupD] using this

theorem usersInner_lookup (name : String) (ds : List String) :
    ∀ (m : SMap) (n : String),
    lookupD (ds.foldl (fun m' d => insrt m' d (insert name (lookupD m' d))) m) n =
      if n ∈ ds then insert name (lookupD m n) else lookupD m n := by
  induction ds with
  | nil => intro m n; simp
  | cons d rest ih =>
    intro m n
    simp only [List.foldl_cons]
    rw [ih]
    by_cases hd : d = n
    · subst hd
      simp only [List.mem_cons, true_or, if_pos]
      by_cases hn : d ∈ rest
      · rw [if_pos hn, lookupD_insrt, if_pos rfl]
        simp
      · rw [if_neg hn, lookupD_insrt, if_pos rfl]
    · rw [lookupD_insrt, if_neg hd]
      by_cases hn : n ∈ rest
      · simp [hn, List.mem_cons]
      · have : ¬ (n = d ∨ n ∈ rest) := by
          rintro (he | hm)
          · exact hd he.symm
          · exact hn hm
        simp only [List.mem_cons, if_neg this, if_neg hn]

theorem usersInit_lookup (rels : List TypeRelations) :
    ∀ (m : SMap) (n : String),
    lookupD (rels.foldl (fun m r =>
      r.depends_on.foldl (fun m' d => insrt m' d (insert r.type_name (lookupD m' d))) m) m) n =
      lookupD m n ∪ usersOf rels n := by
  induction rels with
  | nil => intro m n; simp [usersOf, lookupD]
  | cons r rest ih =>
    intro m n
    simp only [List.foldl_cons]
    rw [ih, usersInner_lookup]
    by_cases h : n ∈ r.depends_on
    · rw [if_pos h]
      rw [show usersOf (r :: rest) n = insert r.type_name (usersOf rest n) from by
        simp [usersOf, h]]
      rw [Finset.union_insert, Finset.insert_union]
    · rw [if_neg h]
      rw [show usersOf (r :: rest) n = usersOf rest n from by simp [usersOf, h]]

theorem lookupD_usersInit (rels : List TypeRelations) (n : String) :
    lookupD (usersInit rels) n = usersOf rels n := by
  have := usersInit_lookup rels [] n
  simpa [usersInit, lookupD] using this

/-! ### Reachability characterisation of the fixed point -/

/-- One edge of the immediate dependency graph. -/
def depEdge (rels : List TypeRelations) (n m : String) : Prop := m ∈ depsOf rels n

/-- Reachability along at least one dependency edge. -/
def depReach (rels : List TypeRelations) : String → String → Prop :=
  Relation.TransGen (depEdge rels)

theorem mem_relNames {rels : List TypeRelations} {n : String} :
    n ∈ relNames rels ↔ ∃ r ∈ rels, r.type_name = n := by
  simp [relNames, List.mem_toFinset, List.mem_map]

theorem depEdge_src_mem {rels : List TypeRelations} {n m : String}
    (h : depEdge rels n m) : n ∈ relNames rels := by
  rcases mem_depsOf.mp h with ⟨r, hr, he, _⟩
  exact mem_relNames.mpr ⟨r, hr, he⟩

theorem depReach_src_mem {rels : List TypeRelations} {n m : String}
    (h : depReach rels n m) : n ∈ relNames rels := by
  induction h with
  | single h => exact depEdge_src_mem h
  | tail _ _ ih => exact ih

theorem depReach_last {rels : List TypeRelations} {n m : String}
    (h : depReach rels n m) : ∃ z, depEdge rels z m := by
  induction h with
  | single h => exact ⟨_, h⟩
  | tail _ h _ => exact ⟨_, h⟩

theorem mem_relaxed {m' : SMap} {n x : String} (h : x ∈ relaxed m' n) :
    x ∈ lookupD m' n ∨ ∃ d ∈ lookupD m' n, x ∈ lookupD m' d := by
  unfold relaxed at h
  rcases Finset.mem_union.mp h with h | h
  · exact Or.inl h
  · rcases Finset.mem_biUnion.mp h with ⟨d, hd, hx⟩
    exact Or.inr ⟨d, hd, hx⟩

/-- Everything the loop ever stores is justified by a dependency path
of the input graph. -/
def ReachBounded (rels : List TypeRelations) (g : Graphs) : Prop :=
  (∀ n m, m ∈ lookupD g.deps n → depReach rels n m) ∧
  (∀ n y, y ∈ lookupD g.users n → depReach rels y n)

theorem relStep_reachBounded {rels : List TypeRelations} {p : Graphs × Bool}
    {r : TypeRelations} (h : ReachBounded rels p.1) :
    ReachBounded rels (relStep p r).1 := by
  obtain ⟨hd, hu⟩ := h
  constructor
  · intro n m hm
    unfold relStep at hm
    dsimp only at hm
    split at hm
    · rw [lookupD_insrt] at hm
      split at hm
      · next he =>
        subst he
        rcases mem_relaxed hm with h1 | ⟨d, hdm, h2⟩
        · exact hd _ _ h1
        · exact (hd _ _ hdm).trans (hd _ _ h2)
      · exact hd _ _ hm
    · exact hd _ _ hm
  · intro n y hy
    unfold relStep at hy
    dsimp only at hy
    split at hy
    · rw [lookupD_insrt] at hy
      split at hy
      · next he =>
        subst he
        rcases mem_relaxed hy with h1 | ⟨u, hun, h2⟩
        · exact hu _ _ h1
        · exact (hu _ _ h2).trans (hu _ _ hun)
      · exact hu _ _ hy
    · exact hu _ _ hy

theorem foldl_reachBounded {rels : List TypeRelations} :
    ∀ (l : List TypeRelations) (p : Graphs × Bool), ReachBounded rels p.1 →
    ReachBounded rels (l.foldl relStep p).1 := by
  intro l
  induction l with
  | nil => intro p h; exact h
  | cons r rest ih =>
    intro p h
    exact ih (relStep p r) (relStep_reachBounded h)

theorem closeLoopF_reachBounded {rels : List TypeRelations} :
    ∀ (fuel : Nat) (g : Graphs), ReachBounded rels g →
    ReachBounded rels (closeLoopF fuel rels g) := by
  intro fuel
  induction fuel with
  | zero => intro g h; exact h
  | succ f ih =>
    intro g h
    show ReachBounded rels
      (if (clPass rels g).2 = true then closeLoopF f rels (clPass rels g).1
       else (clPass rels g).1)
    split
    · exact ih _ (foldl_reachBounded rels (g, false) h)
    · exact foldl_reachBounded rels (g, false) h

theorem initGraphs_reachBounded (rels : List TypeRelations) :
    ReachBounded rels (initGraphs rels) := by
  constructor
  · intro n m hm
    rw [show (initGraphs rels).deps = depsInit rels from rfl, lookupD_depsInit] at hm
    exact Relation.TransGen.single hm
  · intro n y hy
    rw [show (initGraphs rels).users = usersInit rels from rfl, lookupD_usersInit] at hy
    rcases mem_usersOf.mp hy with ⟨r, hr, he, hm⟩
    exact Relation.TransGen.single (mem_depsOf.mpr ⟨r, hr, he, hm⟩)

theorem final_reachBounded (rels : List TypeRelations) :
    ReachBounded rels (closeLoop rels (initGraphs rels)) :=
  closeLoopF_reachBounded _ _ (initGraphs_reachBounded rels)

/-- The graphs relaxation makes no step forward: the exit condition of
the loop, per relation. -/
def GraphsClosed (rels : List TypeRelations) (g : Graphs) : Prop :=
  ∀ r ∈ rels, relaxed g.deps r.type_name ⊆ lookupD g.deps r.type_name ∧
    relaxed g.users r.type_name ⊆ lookupD g.users r.type_name

theorem foldl_relStep_false (l : List TypeRelations) (g : Graphs)
    (h : (l.foldl relStep (g, false)).2 = false) :
    l.foldl relStep (g, false) = (g, false) := by
  induction l with
  | nil => rfl
  | cons r rest ih =>
    simp only [List.foldl_cons] at h ⊢
    by_cases hc : (relStep (g, false) r).2 = true
    · have ht := foldl_relStep_flag_mono rest (relStep (g, false) r) hc
      simp [ht] at h
    · have hfalse : (relStep (g, false) r).2 = false := by
        revert hc; cases (relStep (g, false) r).2 <;> simp
      rw [relStep_false g r hfalse] at h ⊢
      exact ih h

theorem foldl_false_fix (l : List TypeRelations) (g : Graphs)
    (h : (l.foldl relStep (g, false)).2 = false) :
    ∀ r ∈ l, relaxed g.deps r.type_name ⊆ lookupD g.deps r.type_name ∧
      relaxed g.users r.type_name ⊆ lookupD g.users r.type_name := by
  induction l with
  | nil => intro r hr; cases hr
  | cons r0 rest ih =>
    intro r hr
    simp only [List.foldl_cons] at h
    by_cases hc : (relStep (g, false) r0).2 = true
    · have ht := foldl_relStep_flag_mono rest (relStep (g, false) r0) hc
      simp [ht] at h
    · have hfalse : (relStep (g, false) r0).2 = false := by
        revert hc; cases (relStep (g, false) r0).2 <;> simp
      rcases List.mem_cons.mp hr with he | hm
      · exact he ▸ relStep_false_fix g r0 hfalse
      · rw [relStep_false g r0 hfalse] at h
        exact ih h r hm

theorem clPass_false_closed {rels : List TypeRelations} {g : Graphs}
    (h : (clPass rels g).2 = false) : GraphsClosed rels g :=
  foldl_false_fix rels g h

theorem closeLoopF_closed (rels : List TypeRelations) :
    ∀ (fuel : Nat) (g : Graphs), gMeasure rels g < fuel →
    GraphsClosed rels (closeLoopF fuel rels g) := by
  intro fuel
  induction fuel with
  | zero => intro g h; omega
  | succ f ih =>
    intro g hlt
    show GraphsClosed rels
      (if (clPass rels g).2 = true then closeLoopF f rels (clPass rels g).1
       else (clPass rels g).1)
    split
    · next h =>
      have := clPass_measure rels g h
      exact ih _ (by omega)
    · next h =>
      have hfalse : (clPass rels g).2 = false := by
        revert h; cases (clPass rels g).2 <;> simp
      rw [show (clPass rels g).1 = g from congrArg Prod.fst (foldl_relStep_false rels g hfalse)]
      exact clPass_false_closed hfalse

theorem closeLoop_closed (rels : List TypeRelations) (g : Graphs) :
    GraphsClosed rels (closeLoop rels g) :=
  closeLoopF_closed rels _ g (Nat.lt_succ_self _)

theorem closeLoopF_lookup_mono (rels : List TypeRelations) :
    ∀ (fuel : Nat) (g : Graphs) (n : String),
    lookupD g.deps n ⊆ lookupD (closeLoopF fuel rels g).deps n ∧
    lookupD g.users n ⊆ lookupD (closeLoopF fuel rels g).users n := by
  intro fuel
  induction fuel with
  | zero => intro g n; exact ⟨Finset.Subset.refl _, Finset.Subset.refl _⟩
  | succ f ih =>
    intro g n
    have hstep : closeLoopF (f + 1) rels g =
        if (clPass rels g).2 = true then closeLoopF f rels (clPass rels g).1
        else (clPass rels g).1 := rfl
    rw [hstep]
    have hp : lookupD g.deps n ⊆ lookupD (clPass rels g).1.deps n ∧
        lookupD g.users n ⊆ lookupD (clPass rels g).1.users n :=
      foldl_relStep_lookup_mono rels (g, false) n
    split
    · exact ⟨hp.1.trans (ih (clPass rels g).1 n).1, hp.2.trans (ih (clPass rels g).1 n).2⟩
    · exact hp

theorem closeLoop_lookup_mono (rels : List TypeRelations) (g : Graphs) (n : String) :
    lookupD g.deps n ⊆ lookupD (closeLoop rels g).deps n ∧
    lookupD g.users n ⊆ lookupD (closeLoop rels g).users n :=
  closeLoopF_lookup_mono rels _ g n

theorem reach_subset_closed {rels : List TypeRelations} {g : Graphs}
    (hinit : ∀ n, depsOf rels n ⊆ lookupD g.deps n)
    (hclosed : GraphsClosed rels g) :
    ∀ n m, depReach rels n m → m ∈ lookupD g.deps n := by
  intro n m h
  induction h with
  | single h => exact hinit n h
  | @tail d m' hreach hedge ih =>
    have hm : m' ∈ lookupD g.deps d := hinit d hedge
    rcases mem_relNames.mp (depReach_src_mem hreach) with ⟨r, hr, he⟩
    have hsub := (hclosed r hr).1
    rw [he] at hsub
    exact hsub (Finset.mem_union_right _ (Finset.mem_biUnion.mpr ⟨d, ih, hm⟩))

/-- The user-graph edge, which is the dependency edge reversed. -/
def userEdge (rels : List TypeRelations) (n y : String) : Prop := y ∈ usersOf rels n

theorem userEdge_swap {rels : List TypeRelations} {n y : String} :
    userEdge rels n y ↔ depEdge rels y n := by
  unfold userEdge depEdge
  rw [mem_usersOf, mem_depsOf]

theorem usersReach_iff_depReach {rels : List TypeRelations} {n y : String} :
    Relation.TransGen (userEdge rels) n y ↔ depReach rels y n := by
  constructor
  · intro h
    rw [show depReach rels y n ↔
        Relation.TransGen (Function.swap (userEdge rels)) y n from
      Iff.intro
        (fun h2 => Relation.TransGen.mono (fun a b hab => userEdge_swap.mpr hab) h2)
        (fun h2 => Relation.TransGen.mono (fun a b hab => userEdge_swap.mp hab) h2)]
    exact Relation.transGen_swap.mpr h
  · intro h
    have h2 : Relation.TransGen (Function.swap (userEdge rels)) y n :=
      Relation.TransGen.mono (fun a b hab => userEdge_swap.mpr hab) h
    exact Relation.transGen_swap.mp h2

theorem usersReach_subset_closed {rels : List TypeRelations} {g : Graphs}
    (hinit : ∀ n, usersOf rels n ⊆ lookupD g.users n)
    (hclosed : GraphsClosed rels g) :
    ∀ n, n ∈ relNames rels → ∀ y, depReach rels y n → y ∈ lookupD g.users n := by
  intro n hn y h
  rcases mem_relNames.mp hn with ⟨r, hr, he⟩
  have h2 : Relation.TransGen (userEdge rels) n y := usersReach_iff_depReach.mpr h
  clear h
  induction h2 with
  | single h1 => exact hinit n h1
  | @tail u y' hreach hedge ih =>
    have hy : y' ∈ lookupD g.users u := hinit u hedge
    have hsub := (hclosed r hr).2
    rw [he] at hsub
    exact hsub (Finset.mem_union_right _ (Finset.mem_biUnion.mpr ⟨u, ih, hy⟩))

/-- Final characterisation of the closed dependency sets: exactly the
names reachable through at least one dependency edge. -/
theorem deps_final_mem (rels : List TypeRelations) (n m : String) :
    m ∈ lookupD (closeLoop rels (initGraphs rels)).deps n ↔ depReach rels n m := by
  constructor
  · exact fun h => (final_reachBounded rels).1 n m h
  · intro h
    refine reach_subset_closed (g := closeLoop rels (initGraphs rels)) ?_
      (closeLoop_closed rels _) n m h
    intro n'
    rw [← lookupD_depsInit rels n']
    exact (closeLoop_lookup_mono rels (initGraphs rels) n').1

/-- Final characterisation of the closed user sets at the names that
carry a record: exactly the names from which the record's name is
reachable. -/
theorem users_final_mem (rels : List TypeRelations) (n : String)
    (hn : n ∈ relNames rels) (y : String) :
    y ∈ lookupD (closeLoop rels (initGraphs rels)).users n ↔ depReach rels y n := by
  constructor
  · exact fun h => (final_reachBounded rels).2 n y h
  · intro h
    refine usersReach_subset_closed (g := closeLoop rels (initGraphs rels)) ?_
      (closeLoop_closed rels _) n hn y h
    intro n'
    rw [← lookupD_usersInit rels n']
    exact (closeLoop_lookup_mono rels (initGraphs rels) n').2

/-! ### Key presence through the loop -/

theorem relStep_hasKey_mono (p : Graphs × Bool) (r : TypeRelations) (n : String) :
    (hasKey p.1.deps n = true → hasKey (relStep p r).1.deps n = true) ∧
    (hasKey p.1.users n = true → hasKey (relStep p r).1.users n = true) := by
  unfold relStep
  dsimp only
  constructor
  · intro h
    split
    · exact (hasKey_insrt _ _ _ _).mpr (Or.inr h)
    · exact h
  · intro h
    split
    · exact (hasKey_insrt _ _ _ _).mpr (Or.inr h)
    · exact h

theorem foldl_hasKey_mono (l : List TypeRelations) (p : Graphs × Bool) (n : String) :
    (hasKey p.1.deps n = true → hasKey (l.foldl relStep p).1.deps n = true) ∧
    (hasKey p.1.users n = true → hasKey (l.foldl relStep p).1.users n = true) := by
  induction l generalizing p with
  | nil => exact ⟨id, id⟩
  | cons r rest ih =>
    exact ⟨fun h => (ih (relStep p r)).1 ((relStep_hasKey_mono p r n).1 h),
           fun h => (ih (relStep p r)).2 ((relStep_hasKey_mono p r n).2 h)⟩

theorem closeLoopF_hasKey_mono (rels : List TypeRelations) :
    ∀ (fuel : Nat) (g : Graphs) (n : String),
    (hasKey g.deps n = true → hasKey (closeLoopF fuel rels g).deps n = true) ∧
    (hasKey g.users n = true → hasKey (closeLoopF fuel rels g).users n = true) := by
  intro fuel
  induction fuel with
  | zero => intro g n; exact ⟨id, id⟩
  | succ f ih =>
    intro g n
    have hstep : closeLoopF (f + 1) rels g =
        if (clPass rels g).2 = true then closeLoopF f rels (clPass rels g).1
        else (clPass rels g).1 := rfl
    rw [hstep]
    have hp : (hasKey g.deps n = true → hasKey (clPass rels g).1.deps n = true) ∧
        (hasKey g.users n = true → hasKey (clPass rels g).1.users n = true) :=
      foldl_hasKey_mono rels (g, false) n
    split
    · exact ⟨fun h => (ih (clPass rels g).1 n).1 (hp.1 h),
             fun h => (ih (clPass rels g).1 n).2 (hp.2 h)⟩
    · exact hp

theorem closeLoop_hasKey_mono (rels : List TypeRelations) (g : Graphs) (n : String) :
    (hasKey g.deps n = true → hasKey (closeLoop rels g).deps n = true) ∧
    (hasKey g.users n = true → hasKey (closeLoop rels g).users n = true) :=
  closeLoopF_hasKey_mono rels _ g n

theorem hasKey_depsInit_fold (rels : List TypeRelations) :
    ∀ (m : SMap) (n : String),
    hasKey (rels.foldl (fun m r =>
      insrt m r.type_name (lookupD m r.type_name ∪ r.depends_on.toFinset)) m) n = true ↔
    hasKey m n = true ∨ n ∈ relNames rels := by
  induction rels with
  | nil =>
    intro m n
    simp [relNames]
  | cons r rest ih =>
    intro m n
    simp only [List.foldl_cons]
    rw [ih, hasKey_insrt]
    rw [show (n ∈ relNames (r :: rest)) ↔ (r.type_name = n ∨ n ∈ relNames rest) from by
      simp only [mem_relNames, List.mem_cons]
      constructor
      · rintro ⟨r', hr' | hr', he⟩
        · exact Or.inl (hr' ▸ he)
        · exact Or.inr ⟨r', hr', he⟩
      · rintro (he | ⟨r', hr', he⟩)
        · exact ⟨r, Or.inl rfl, he⟩
        · exact ⟨r', Or.inr hr', he⟩]
    constructor
    · rintro ((he | hk) | hm)
      · exact Or.inr (Or.inl he.symm)
      · exact Or.inl hk
      · exact Or.inr (Or.inr hm)
    · rintro (hk | (he | hm))
      · exact Or.inl (Or.inr hk)
      · exact Or.inl (Or.inl he.symm)
      · exact Or.inr hm

theorem hasKey_depsInit (rels : List TypeRelations) (n : String) :
    hasKey (depsInit rels) n = true ↔ n ∈ relNames rels := by
  rw [show depsInit rels = rels.foldl (fun m r =>
    insrt m r.type_name (lookupD m r.type_name ∪ r.depends_on.toFinset)) [] from rfl]
  rw [hasKey_depsInit_fold]
  simp [hasKey]

theorem hasKey_usersInner (name : String) (ds : List String) :
    ∀ (m : SMap) (n : String),
    hasKey (ds.foldl (fun m' d => insrt m' d (insert name (lookupD m' d))) m) n = true ↔
    hasKey m n = true ∨ n ∈ ds := by
  induction ds with
  | nil => intro m n; simp
  | cons d rest ih =>
    intro m n
    simp only [List.foldl_cons]
    rw [ih, hasKey_insrt]
    simp only [List.mem_cons]
    tauto

theorem hasKey_usersInit_fold (rels : List TypeRelations) :
    ∀ (m : SMap) (n : String),
    hasKey (rels.foldl (fun m r =>
      r.depends_on.foldl (fun m' d => insrt m' d (insert r.type_name (lookupD m' d))) m) m) n
      = true ↔
    hasKey m n = true ∨ ∃ r ∈ rels, n ∈ r.depends_on := by
  induction rels with
  | nil => intro m n; simp
  | cons r rest ih =>
    intro m n
    simp only [List.foldl_cons]
    rw [ih, hasKey_usersInner]
    simp only [List.mem_cons]
    constructor
    · rintro ((hk | hm) | ⟨r', hr', hm⟩)
      · exact Or.inl hk
      · exact Or.inr ⟨r, Or.inl rfl, hm⟩
      · exact Or.inr ⟨r', Or.inr hr', hm⟩
    · rintro (hk | ⟨r', hr' | hr', hm⟩)
      · exact Or.inl (Or.inl hk)
      · exact Or.inl (Or.inr (hr' ▸ hm))
      · exact Or.inr ⟨r', hr', hm⟩

theorem hasKey_usersInit (rels : List TypeRelations) (n : String) :
    hasKey (usersInit rels) n = true ↔ ∃ r ∈ rels, n ∈ r.depends_on := by
  rw [show usersInit rels = rels.foldl (fun m r =>
    r.depends_on.foldl (fun m' d => insrt m' d (insert r.type_name (lookupD m' d))) m) [] from rfl]
  rw [hasKey_usersInit_fold]
  simp [hasKey]

/-! ### Sorted output of a set -/

theorem mem_sortStr {s : Finset String} {x : String} : x ∈ sortStr s ↔ x ∈ s := by
  cases s with
  | mk val nodup =>
    induction val using Quotient.inductionOn with
    | h l =>
      show x ∈ List.insertionSort strLeR l ↔ _
      rw [List.Perm.mem_iff (List.perm_insertionSort _ l)]
      simp [Finset.mem_mk]

/-! ### The fields of the closed records -/

theorem closeUpd_name (rels : List TypeRelations) (r : TypeRelations) :
    (closeUpd rels r).type_name = r.type_name := rfl

theorem closeUpd_traits (rels : List TypeRelations) (r : TypeRelations) :
    (closeUpd rels r).implemented_traits = r.implemented_traits := rfl

theorem closeUpd_deps {rels : List TypeRelations} {r : TypeRelations} (hr : r ∈ rels) :
    (closeUpd rels r).depends_on =
      sortStr (lookupD (closeLoop rels (initGraphs rels)).deps r.type_name) := by
  unfold closeUpd
  dsimp only
  rw [if_pos]
  exact (closeLoop_hasKey_mono rels (initGraphs rels) r.type_name).1
    ((hasKey_depsInit rels r.type_name).mpr (mem_relNames.mpr ⟨r, hr, rfl⟩))

theorem closeUpd_used_by_pos {rels : List TypeRelations} {r : TypeRelations}
    (hk : hasKey (closeLoop rels (initGraphs rels)).users r.type_name = true) :
    (closeUpd rels r).used_by =
      sortStr (lookupD (closeLoop rels (initGraphs rels)).users r.type_name) := by
  unfold closeUpd
  dsimp only
  rw [if_pos hk]

theorem closeUpd_used_by_neg {rels : List TypeRelations} {r : TypeRelations}
    (hk : ¬ hasKey (closeLoop rels (initGraphs rels)).users r.type_name = true) :
    (closeUpd rels r).used_by = r.used_by := by
  unfold closeUpd
  dsimp only
  rw [if_neg hk]

/-! ### Bound on the closed sets -/

/-- Every type name appearing in the input relations: the record names
together with every name listed in a `depends_on`. -/
def allNames (rels : List TypeRelations) : Finset String :=
  relNames rels ∪ rels.foldr (fun r s => r.depends_on.toFinset ∪ s) ∅

theorem mem_depsUnion {rels : List TypeRelations} {m : String} :
    m ∈ rels.foldr (fun r s => r.depends_on.toFinset ∪ s) ∅ ↔
      ∃ r ∈ rels, m ∈ r.depends_on := by
  induction rels with
  | nil => simp
  | cons r rest ih =>
    simp only [List.foldr_cons, Finset.mem_union, List.mem_toFinset, ih, List.mem_cons]
    constructor
    · rintro (hm | ⟨r', hr', hm⟩)
      · exact ⟨r, Or.inl rfl, hm⟩
      · exact ⟨r', Or.inr hr', hm⟩
    · rintro ⟨r', hr' | hr', hm⟩
      · exact Or.inl (hr' ▸ hm)
      · exact Or.inr ⟨r', hr', hm⟩

theorem final_bounded (rels : List TypeRelations) (n : String) :
    lookupD (closeLoop rels (initGraphs rels)).deps n ⊆ allNames rels ∧
    lookupD (closeLoop rels (initGraphs rels)).users n ⊆ allNames rels := by
  constructor
  · intro m hm
    have hreach := (deps_final_mem rels n m).mp hm
    rcases depReach_last hreach with ⟨z, hz⟩
    rcases mem_depsOf.mp hz with ⟨r, hr, _, hmem⟩
    exact Finset.mem_union_right _ (mem_depsUnion.mpr ⟨r, hr, hmem⟩)
  · intro y hy
    have hreach := (final_reachBounded rels).2 n y hy
    exact Finset.mem_union_left _ (depReach_src_mem hreach)

/-! ### Idempotence machinery: the closed list is a fixed point -/

theorem typeRel_eq {x y : TypeRelations} (h1 : x.type_name = y.type_name)
    (h2 : x.implemented_traits = y.implemented_traits) (h3 : x.used_by = y.used_by)
    (h4 : x.depends_on = y.depends_on) : x = y := by
  cases x; cases y
  dsimp at h1 h2 h3 h4
  subst h1; subst h2; subst h3; subst h4
  rfl

theorem build_mem {rels : List TypeRelations} {r₁ : TypeRelations} :
    r₁ ∈ buildTypeRelations rels ↔ ∃ r ∈ rels, closeUpd rels r = r₁ := by
  unfold buildTypeRelations
  exact List.mem_map

theorem mem_depsOf_build {rels : List TypeRelations} {n m : String} :
    m ∈ depsOf (buildTypeRelations rels) n ↔ depReach rels n m := by
  rw [mem_depsOf]
  constructor
  · rintro ⟨r₁, hr₁, he, hm⟩
    rcases build_mem.mp hr₁ with ⟨r, hr, hcl⟩
    subst hcl
    rw [closeUpd_deps hr, mem_sortStr] at hm
    rw [show r.type_name = n from he] at hm
    exact (deps_final_mem rels n m).mp hm
  · intro h
    rcases mem_relNames.mp (depReach_src_mem h) with ⟨r, hr, he⟩
    refine ⟨closeUpd rels r, build_mem.mpr ⟨r, hr, rfl⟩, he, ?_⟩
    rw [closeUpd_deps hr, mem_sortStr, he]
    exact (deps_final_mem rels n m).mpr h

theorem mem_usersOf_build {rels : List TypeRelations} {n y : String} :
    y ∈ usersOf (buildTypeRelations rels) n ↔ depReach rels y n := by
  rw [mem_usersOf]
  constructor
  · rintro ⟨r₁, hr₁, he, hm⟩
    rcases build_mem.mp hr₁ with ⟨r, hr, hcl⟩
    subst hcl
    rw [closeUpd_deps hr, mem_sortStr] at hm
    rw [show r.type_name = y from he] at hm
    exact (deps_final_mem rels y n).mp hm
  · intro h
    rcases mem_relNames.mp (depReach_src_mem h) with ⟨r, hr, he⟩
    refine ⟨closeUpd rels r, build_mem.mpr ⟨r, hr, rfl⟩, he, ?_⟩
    rw [closeUpd_deps hr, mem_sortStr, he]
    exact (deps_final_mem rels y n).mpr h

theorem build_initGraphs_closed (rels : List TypeRelations) :
    GraphsClosed (buildTypeRelations rels) (initGraphs (buildTypeRelations rels)) := by
  intro r₁ _
  constructor
  · intro x hx
    rw [show (initGraphs (buildTypeRelations rels)).deps =
        depsInit (buildTypeRelations rels) from rfl] at hx ⊢
    rw [lookupD_depsInit, mem_depsOf_build]
    rcases mem_relaxed hx with h1 | ⟨d, hd, h2⟩
    · rw [lookupD_depsInit, mem_depsOf_build] at h1
      exact h1
    · rw [lookupD_depsInit, mem_depsOf_build] at hd h2
      exact hd.trans h2
  · intro x hx
    rw [show (initGraphs (buildTypeRelations rels)).users =
        usersInit (buildTypeRelations rels) from rfl] at hx ⊢
    rw [lookupD_usersInit, mem_usersOf_build]
    rcases mem_relaxed hx with h1 | ⟨u, hu, h2⟩
    · rw [lookupD_usersInit, mem_usersOf_build] at h1
      exact h1
    · rw [lookupD_usersInit, mem_usersOf_build] at hu h2
      exact h2.trans hu

theorem relStep_of_closed {g : Graphs} {r : TypeRelations}
    (h1 : relaxed g.deps r.type_name ⊆ lookupD g.deps r.type_name)
    (h2 : relaxed g.users r.type_name ⊆ lookupD g.users r.type_name) :
    relStep (g, false) r = (g, false) := by
  unfold relStep
  simp [decide_eq_false (not_not_intro h1), decide_eq_false (not_not_intro h2)]

theorem foldl_of_closed {g : Graphs} :
    ∀ (l : List TypeRelations),
    (∀ r ∈ l, relaxed g.deps r.type_name ⊆ lookupD g.deps r.type_name ∧
      relaxed g.users r.type_name ⊆ lookupD g.users r.type_name) →
    l.foldl relStep (g, false) = (g, false) := by
  intro l
  induction l with
  | nil => intro _; rfl
  | cons r rest ih =>
    intro h
    simp only [List.foldl_cons]
    rw [relStep_of_closed (h r (List.mem_cons_self r rest)).1
      (h r (List.mem_cons_self r rest)).2]
    exact ih (fun r' hr' => h r' (List.mem_cons_of_mem r hr'))

theorem closeLoop_of_closed {rels : List TypeRelations} {g : Graphs}
    (h : GraphsClosed rels g) : closeLoop rels g = g := by
  have hp : clPass rels g = (g, false) := foldl_of_closed rels h
  rw [closeLoop_eq, hp]
  simp

/-! ### The scanner's usage-map invariant

At every point of the scan, a user recorded in the usage map is either
already finalized into a record whose `depends_on` holds the used
name, or is the open context with the used name in the accumulator;
and every finalized `used_by` entry is backed by the usage map. -/

theorem lookupO_eq_lookupD {m : SMap} {k : String} {s : Finset String}
    (h : lookupO m k = some s) : lookupD m k = s := by
  induction m with
  | nil => simp [lookupO] at h
  | cons p rest ih =>
    by_cases hp : p.1 = k
    · simp only [lookupO, if_pos hp] at h
      simp only [lookupD, if_pos hp]
      exact Option.some.inj h
    · simp only [lookupO, if_neg hp] at h
      simp only [lookupD, if_neg hp]
      exact ih h

def UsageInv (proj : Finset String) (st : ScanSt) : Prop :=
  (∀ x y, y ∈ lookupD st.usageM x →
    x ∈ proj ∧ ((∃ r ∈ st.rels, r.type_name = y ∧ x ∈ r.depends_on) ∨
      (st.current = some y ∧ x ∈ st.acc))) ∧
  (∀ r ∈ st.rels, ∀ y ∈ r.used_by, y ∈ lookupD st.usageM r.type_name)

theorem usageInv_init (proj : Finset String) : UsageInv proj initScan := by
  constructor
  · intro x y hy
    simp [initScan, lookupD] at hy
  · intro r hr
    simp [initScan] at hr

theorem deriveStep_eq (st : ScanSt) (line : List Char) (nextRaw : Option (List Char)) :
    deriveStep st line nextRaw = { st with traitsM := (deriveStep st line nextRaw).traitsM } := by
  unfold deriveStep
  split
  · split
    · split
      · split
        · rfl
        · rfl
      · rfl
    · rfl
  · rfl

theorem deriveStep_usageInv {proj : Finset String} {st : ScanSt}
    {line : List Char} {nextRaw : Option (List Char)} (h : UsageInv proj st) :
    UsageInv proj (deriveStep st line nextRaw) := by
  rw [deriveStep_eq]
  exact h

/-- The `used_by` field of a freshly finalized record is backed by the
usage map. -/
theorem finalized_used_by {usageM : SMap} {name y : String}
    (hy : y ∈ (match lookupO usageM name with
               | some s => sortStr s
               | none => ([] : List String))) :
    y ∈ lookupD usageM name := by
  cases ho : lookupO usageM name with
  | none => rw [ho] at hy; cases hy
  | some s =>
    rw [ho] at hy
    rw [lookupO_eq_lookupD ho]
    exact mem_sortStr.mp hy

theorem declStep_usageInv {proj : Finset String} {st : ScanSt} {line : List Char}
    (h : UsageInv proj st) : UsageInv proj (declStep proj st line) := by
  unfold declStep
  cases hdecl : typeDeclCapture line with
  | none => exact h
  | some tname =>
    dsimp only
    split
    · exact h
    · cases hcur : st.current with
      | none =>
        dsimp only
        constructor
        · intro x y hy
          rcases h.1 x y hy with ⟨hp, hd | ⟨hc, _⟩⟩
          · exact ⟨hp, Or.inl hd⟩
          · rw [hcur] at hc; cases hc
        · intro r hr y hy
          exact h.2 r hr y hy
      | some prev =>
        dsimp only
        constructor
        · intro x y hy
          rcases h.1 x y hy with ⟨hp, hd | ⟨hc, ha⟩⟩
          · rcases hd with ⟨r, hr, hn, hx⟩
            exact ⟨hp, Or.inl ⟨r, List.mem_append_left _ hr, hn, hx⟩⟩
          · rw [hcur] at hc
            have hyprev : prev = y := Option.some.inj hc
            refine ⟨hp, Or.inl ⟨_, List.mem_append_right _ (List.mem_singleton_self _), ?_⟩⟩
            exact ⟨hyprev, mem_sortStr.mpr (Finset.mem_filter.mpr ⟨ha, hp⟩)⟩
        · intro r hr y hy
          rcases List.mem_append.mp hr with hr' | hr'
          · exact h.2 r hr' y hy
          · rw [List.mem_singleton] at hr'
            subst hr'
            exact finalized_used_by hy

theorem usage_step_mono (m : SMap) (t cur x : String) :
    lookupD m x ⊆ lookupD (insrt m t (insert cur (lookupD m t))) x := by
  rw [lookupD_insrt]
  split
  · next he => rw [← he]; exact (Finset.subset_insert _ _)
  · exact Finset.Subset.refl _

theorem depFold_usageInv {proj : Finset String} {cur : String} :
    ∀ (ts : List String) (st : ScanSt), st.current = some cur → UsageInv proj st →
    UsageInv proj (ts.foldl (fun s t =>
      if t ∈ proj ∧ t ≠ cur then
        { s with acc := insert t s.acc
               , usageM := insrt s.usageM t (insert cur (lookupD s.usageM t)) }
      else s) st) := by
  intro ts
  induction ts with
  | nil => intro st _ h; exact h
  | cons t rest ih =>
    intro st hcur h
    simp only [List.foldl_cons]
    by_cases hc : t ∈ proj ∧ t ≠ cur
    · rw [if_pos hc]
      refine ih _ (by exact hcur) ⟨?_, ?_⟩
      · intro x y hy
        dsimp only at hy
        rw [lookupD_insrt] at hy
        by_cases hx : t = x
        · rw [if_pos hx] at hy
          rcases Finset.mem_insert.mp hy with hyc | hyold
          · subst hyc
            exact ⟨hx ▸ hc.1, Or.inr ⟨hcur, hx ▸ Finset.mem_insert_self t st.acc⟩⟩
          · rcases h.1 x y (hx ▸ hyold) with ⟨hp, hd | ⟨hc2, ha⟩⟩
            · exact ⟨hp, Or.inl hd⟩
            · exact ⟨hp, Or.inr ⟨hc2, Finset.mem_insert_of_mem ha⟩⟩
        · rw [if_neg hx] at hy
          rcases h.1 x y hy with ⟨hp, hd | ⟨hc2, ha⟩⟩
          · exact ⟨hp, Or.inl hd⟩
          · exact ⟨hp, Or.inr ⟨hc2, Finset.mem_insert_of_mem ha⟩⟩
      · intro r hr y hy
        exact usage_step_mono st.usageM t cur r.type_name (h.2 r hr y hy)
    · rw [if_neg hc]
      exact ih st hcur h

theorem depStep_usageInv {proj : Finset String} {st : ScanSt} {line : List Char}
    (h : UsageInv proj st) : UsageInv proj (depStep proj st line) := by
  unfold depStep
  cases hcur : st.current with
  | none => exact h
  | some cur => exact depFold_usageInv (extractRefs line) st hcur h

theorem scanLine_usageInv {proj : Finset String} {st : ScanSt} {raw : List Char}
    {nextRaw : Option (List Char)} (h : UsageInv proj st) :
    UsageInv proj (scanLine proj st raw nextRaw) :=
  depStep_usageInv (declStep_usageInv (deriveStep_usageInv h))

theorem scanLines_usageInv {proj : Finset String} :
    ∀ (ls : List (List Char)) (st : ScanSt), UsageInv proj st →
    UsageInv proj (scanLines proj st ls) := by
  intro ls
  induction ls with
  | nil => intro st h; exact h
  | cons l rest ih => intro st h; exact ih _ (scanLine_usageInv h)

theorem usage_to_S2 {proj : Finset String} {st : ScanSt} (h : UsageInv proj st) :
    ∀ r ∈ (match st.current with
           | some last => addTypeRelations proj st.rels last st.acc st.traitsM st.usageM
           | none => st.rels),
    ∀ y ∈ r.used_by,
    ∃ r' ∈ (match st.current with
            | some last => addTypeRelations proj st.rels last st.acc st.traitsM st.usageM
            | none => st.rels),
      r'.type_name = y ∧ r.type_name ∈ r'.depends_on := by
  cases hcur : st.current with
  | none =>
    intro r hr y hy
    rcases h.1 r.type_name y (h.2 r hr y hy) with ⟨_, hd | ⟨hc, _⟩⟩
    · exact hd
    · rw [hcur] at hc; cases hc
  | some last =>
    intro r hr y hy
    have hyusage : y ∈ lookupD st.usageM r.type_name := by
      rcases List.mem_append.mp hr with hr' | hr'
      · exact h.2 r hr' y hy
      · rw [List.mem_singleton] at hr'
        subst hr'
        exact finalized_used_by hy
    rcases h.1 r.type_name y hyusage with ⟨hp, hd | ⟨hc, ha⟩⟩
    · rcases hd with ⟨r', hr'', hn, hx⟩
      exact ⟨r', List.mem_append_left _ hr'', hn, hx⟩
    · rw [hcur] at hc
      refine ⟨_, List.mem_append_right _ (List.mem_singleton_self _),
        Option.some.inj hc, ?_⟩
      exact mem_sortStr.mpr (Finset.mem_filter.mpr ⟨ha, hp⟩)

/-- The scanner's output is usage-consistent: every recorded user is
the name of a record whose immediate dependencies contain the used
type. -/
theorem scan_S2 (content : String) :
    ∀ r ∈ scanRelations content, ∀ y ∈ r.used_by,
      ∃ r' ∈ scanRelations content, r'.type_name = y ∧ r.type_name ∈ r'.depends_on :=
  usage_to_S2 (scanLines_usageInv _ _ (usageInv_init _))

/-- The inverse consistency of the closure output, given the
scanner's usage consistency. -/
theorem build_inverse {rels : List TypeRelations}
    (hS : ∀ r ∈ rels, ∀ y ∈ r.used_by,
      ∃ r' ∈ rels, r'.type_name = y ∧ r.type_name ∈ r'.depends_on) :
    ∀ A ∈ buildTypeRelations rels, ∀ B ∈ buildTypeRelations rels,
      (B.type_name ∈ A.used_by ↔ A.type_name ∈ B.depends_on) := by
  intro A hA B hB
  rcases build_mem.mp hA with ⟨rA, hrA, hclA⟩
  rcases build_mem.mp hB with ⟨rB, hrB, hclB⟩
  subst hclA
  subst hclB
  have hBdep : ((closeUpd rels rA).type_name ∈ (closeUpd rels rB).depends_on) ↔
      depReach rels rB.type_name rA.type_name := by
    rw [closeUpd_deps hrB, mem_sortStr]
    exact deps_final_mem rels rB.type_name rA.type_name
  by_cases hk : hasKey (closeLoop rels (initGraphs rels)).users rA.type_name = true
  · rw [closeUpd_used_by_pos hk, mem_sortStr, hBdep]
    exact users_final_mem rels rA.type_name (mem_relNames.mpr ⟨rA, hrA, rfl⟩) rB.type_name
  · rw [closeUpd_used_by_neg hk, hBdep]
    constructor
    · intro hyB
      exfalso
      rcases hS rA hrA _ hyB with ⟨r', hr', _, hdep⟩
      exact hk ((closeLoop_hasKey_mono rels (initGraphs rels) rA.type_name).2
        ((hasKey_usersInit rels rA.type_name).mpr ⟨r', hr', hdep⟩))
    · intro hreach
      exfalso
      rcases depReach_last hreach with ⟨z, hz⟩
      rcases mem_depsOf.mp hz with ⟨rr, hrr, _, hmm⟩
      exact hk ((closeLoop_hasKey_mono rels (initGraphs rels) rA.type_name).2
        ((hasKey_usersInit rels rA.type_name).mpr ⟨rr, hrr, hmm⟩))

/-! ### A scan with no declaration lines produces no relations -/

theorem scanLine_no_decl {proj : Finset String} {st : ScanSt} {raw : List Char}
    {nextRaw : Option (List Char)}
    (hdecl : typeDeclCapture (trimChars raw) = none) (hcur : st.current = none) :
    (scanLine proj st raw nextRaw).current = none ∧
    (scanLine proj st raw nextRaw).rels = st.rels := by
  have h1c : (deriveStep st (trimChars raw) nextRaw).current = none := by
    rw [deriveStep_eq]; exact hcur
  have h1r : (deriveStep st (trimChars raw) nextRaw).rels = st.rels := by
    rw [deriveStep_eq]
  have h2 : declStep proj (deriveStep st (trimChars raw) nextRaw) (trimChars raw) =
      deriveStep st (trimChars raw) nextRaw := by
    unfold declStep
    rw [hdecl]
  have h3 : depStep proj (deriveStep st (trimChars raw) nextRaw) (trimChars raw) =
      deriveStep st (trimChars raw) nextRaw := by
    unfold depStep
    rw [h1c]
  show (depStep proj (declStep proj (deriveStep st (trimChars raw) nextRaw)
    (trimChars raw)) (trimChars raw)).current = none ∧
    (depStep proj (declStep proj (deriveStep st (trimChars raw) nextRaw)
      (trimChars raw)) (trimChars raw)).rels = st.rels
  rw [h2, h3]
  exact ⟨h1c, h1r⟩

theorem scanLines_no_decl {proj : Finset String} :
    ∀ (ls : List (List Char)) (st : ScanSt),
    (∀ l ∈ ls, typeDeclCapture (trimChars l) = none) → st.current = none →
    (scanLines proj st ls).current = none ∧ (scanLines proj st ls).rels = st.rels := by
  intro ls
  induction ls with
  | nil => intro st _ hcur; exact ⟨hcur, rfl⟩
  | cons l rest ih =>
    intro st hall hcur
    have h1 := @scanLine_no_decl proj st l rest.head?
      (hall l (List.mem_cons_self l rest)) hcur
    have h2 := ih (scanLine proj st l rest.head?)
      (fun l' hl' => hall l' (List.mem_cons_of_mem l hl')) h1.1
    exact ⟨h2.1, h2.2.trans h1.2⟩

/-! ### Restructuring the summary accumulation -/

theorem strAppend_assoc (a b c : String) : a ++ b ++ c = a ++ (b ++ c) := by
  cases a with
  | mk la =>
    cases b with
    | mk lb =>
      cases c with
      | mk lc =>
        show String.mk (la ++ lb ++ lc) = String.mk (la ++ (lb ++ lc))
        rw [List.append_assoc]

theorem strAppend_empty (a : String) : a ++ "" = a := by
  cases a with
  | mk la =>
    show String.mk (la ++ []) = String.mk la
    rw [List.append_nil]

theorem strJoin_cons (_s : String) (l : List String) :
    ∀ (a : String), (l.foldl (fun r s => r ++ s) a) = a ++ String.join l := by
  induction l with
  | nil => intro a; exact (strAppend_empty a).symm
  | cons x rest ih =>
    intro a
    show rest.foldl (fun r s => r ++ s) (a ++ x) = a ++ String.join (x :: rest)
    rw [ih (a ++ x), strAppend_assoc]
    congr 1
    show x ++ String.join rest = rest.foldl (fun r s => r ++ s) ("" ++ x)
    rw [ih ("" ++ x)]
    rfl

theorem strJoin_cons' (s : String) (l : List String) :
    String.join (s :: l) = s ++ String.join l := by
  show l.foldl (fun r s => r ++ s) ("" ++ s) = s ++ String.join l
  rw [strJoin_cons s l ("" ++ s)]
  rfl

/-- The per-rule block of the generated summary: the matching lines of
one rule in their source order, each labelled and trimmed.  (This is
the comparison form stated by the specification: all matches of one
rule appear together.) -/
def summaryPart (p : List Char → Bool) (label : String) (ls : List (List Char)) : String :=
  String.join ((ls.filter p).map (fun l => label ++ (String.mk (trimChars l) ++ "\n")))

theorem summary_inner (p : List Char → Bool) (label : String) :
    ∀ (ls : List (List Char)) (acc : String),
    ls.foldl (fun acc2 l =>
      if p l then acc2 ++ (label ++ (String.mk (trimChars l) ++ "\n")) else acc2) acc =
    acc ++ summaryPart p label ls := by
  intro ls
  induction ls with
  | nil => intro acc; exact (strAppend_empty acc).symm
  | cons l rest ih =>
    intro acc
    by_cases hp : p l
    · simp only [List.foldl_cons, if_pos hp]
      rw [ih]
      unfold summaryPart
      rw [List.filter_cons_of_pos hp, List.map_cons, strJoin_cons', strAppend_assoc]
    · simp only [List.foldl_cons, if_neg hp]
      rw [ih]
      unfold summaryPart
      rw [List.filter_cons_of_neg hp]

theorem summary_outer :
    ∀ (rules : List ((List Char → Bool) × String)) (ls : List (List Char)) (acc : String),
    rules.foldl (fun acc rule => ls.foldl (fun acc2 l =>
      if rule.1 l then acc2 ++ (rule.2 ++ (String.mk (trimChars l) ++ "\n")) else acc2) acc) acc =
    acc ++ String.join (rules.map (fun rule => summaryPart rule.1 rule.2 ls)) := by
  intro rules
  induction rules with
  | nil => intro ls acc; exact (strAppend_empty acc).symm
  | cons rule rest ih =>
    intro ls acc
    simp only [List.foldl_cons, List.map_cons]
    rw [summary_inner rule.1 rule.2 ls acc, ih, strJoin_cons', strAppend_assoc]

theorem header_fold :
    ∀ (ls : List (List Char)) (acc : String),
    ls.foldl (fun acc l => acc ++ (String.mk l ++ "\n")) acc =
    acc ++ String.join (ls.map (fun l => String.mk l ++ "\n")) := by
  intro ls
  induction ls with
  | nil => intro acc; exact (strAppend_empty acc).symm
  | cons l rest ih =>
    intro acc
    simp only [List.foldl_cons, List.map_cons]
    rw [ih, strJoin_cons', strAppend_assoc]

/-! ### Tracking the traits map through the scan (for the derive
lookahead claim) -/

theorem lookupT_insrtT (m : List (String × List String)) (k k' : String) (v : List String) :
    lookupT (insrtT m k v) k' = if k = k' then some v else lookupT m k' := by
  induction m with
  | nil => by_cases h : k = k' <;> simp [insrtT, lookupT, h]
  | cons p rest ih =>
    by_cases h : p.1 = k
    · simp only [insrtT, if_pos h]
      by_cases h' : k = k'
      · simp [lookupT, h']
      · have hpk : p.1 ≠ k' := fun hh => h' (h.symm.trans hh)
        simp [lookupT, h', hpk]
    · simp only [insrtT, if_neg h, lookupT]
      by_cases h'' : p.1 = k'
      · have hkk : k ≠ k' := fun hh => h (h''.trans hh.symm)
        simp [h'', hkk]
      · simp [h'', ih]

theorem deriveStep_not_derive {st : ScanSt} {line : List Char}
    {nextRaw : Option (List Char)}
    (h : ("#[derive".data).isPrefixOf line = false) :
    deriveStep st line nextRaw = st := by
  simp [deriveStep, h]

theorem deriveStep_noNext (st : ScanSt) (line : List Char) :
    deriveStep st line none = st := by
  unfold deriveStep
  split <;> rfl

theorem deriveStep_lookupT_of_next {st : ScanSt} {line nl : List Char} {k : String}
    (hk : typeDeclCapture (trimChars nl) ≠ some k) :
    lookupT (deriveStep st line (some nl)).traitsM k = lookupT st.traitsM k := by
  unfold deriveStep
  split
  · dsimp only
    cases hc : typeDeclCapture (trimChars nl) with
    | none => rfl
    | some tname =>
      cases hb : deriveBody line with
      | none => rfl
      | some body =>
        dsimp only
        rw [lookupT_insrtT]
        rw [if_neg (fun he => hk (by rw [hc, he]))]
  · rfl

theorem declStep_traitsM (proj : Finset String) (st : ScanSt) (line : List Char) :
    (declStep proj st line).traitsM = st.traitsM := by
  unfold declStep
  cases typeDeclCapture line with
  | none => rfl
  | some tname =>
    dsimp only
    split
    · rfl
    · cases st.current <;> rfl

theorem declStep_rels_Q {proj : Finset String} {st : ScanSt} {line : List Char}
    (h1 : lookupT st.traitsM "Point" = none)
    (h2 : ∀ r ∈ st.rels, r.type_name = "Point" → r.implemented_traits = []) :
    ∀ r ∈ (declStep proj st line).rels, r.type_name = "Point" →
      r.implemented_traits = [] := by
  unfold declStep
  cases typeDeclCapture line with
  | none => exact h2
  | some tname =>
    dsimp only
    split
    · exact h2
    · cases hcur : st.current with
      | none => exact h2
      | some prev =>
        dsimp only
        intro r hr hname
        rcases List.mem_append.mp hr with hr' | hr'
        · exact h2 r hr' hname
        · rw [List.mem_singleton] at hr'
          subst hr'
          dsimp only at hname ⊢
          rw [hname, h1]
          rfl

theorem depFold_fields (proj : Finset String) (cur : String) :
    ∀ (ts : List String) (s : ScanSt),
    ((ts.foldl (fun s t =>
      if t ∈ proj ∧ t ≠ cur then
        { s with acc := insert t s.acc
               , usageM := insrt s.usageM t (insert cur (lookupD s.usageM t)) }
      else s) s).rels = s.rels ∧
     (ts.foldl (fun s t =>
      if t ∈ proj ∧ t ≠ cur then
        { s with acc := insert t s.acc
               , usageM := insrt s.usageM t (insert cur (lookupD s.usageM t)) }
      else s) s).current = s.current ∧
     (ts.foldl (fun s t =>
      if t ∈ proj ∧ t ≠ cur then
        { s with acc := insert t s.acc
               , usageM := insrt s.usageM t (insert cur (lookupD s.usageM t)) }
      else s) s).traitsM = s.traitsM) := by
  intro ts
  induction ts with
  | nil => intro s; exact ⟨rfl, rfl, rfl⟩
  | cons t rest ih =>
    intro s
    simp only [List.foldl_cons]
    by_cases hc : t ∈ proj ∧ t ≠ cur
    · rw [if_pos hc]
      exact ih _
    · rw [if_neg hc]
      exact ih s

theorem depStep_fields (proj : Finset String) (st : ScanSt) (line : List Char) :
    (depStep proj st line).rels = st.rels ∧
    (depStep proj st line).current = st.current ∧
    (depStep proj st line).traitsM = st.traitsM := by
  unfold depStep
  cases hcur : st.current with
  | none => exact ⟨rfl, hcur, rfl⟩
  | some cur =>
    have h := depFold_fields proj cur (extractRefs line) st
    exact ⟨h.1, h.2.1.trans hcur, h.2.2⟩

theorem deriveStep_rels (st : ScanSt) (line : List Char) (nextRaw : Option (List Char)) :
    (deriveStep st line nextRaw).rels = st.rels := by
  unfold deriveStep
  split
  · split
    · split
      · split
        · rfl
        · rfl
      · rfl
    · rfl
  · rfl

theorem scanLine_Q {proj : Finset String} {st : ScanSt} {raw : List Char}
    {nextRaw : Option (List Char)}
    (hQ2 : ∀ r ∈ st.rels, r.type_name = "Point" → r.implemented_traits = [])
    (hder : lookupT (deriveStep st (trimChars raw) nextRaw).traitsM "Point" = none) :
    lookupT (scanLine proj st raw nextRaw).traitsM "Point" = none ∧
    (∀ r ∈ (scanLine proj st raw nextRaw).rels,
      r.type_name = "Point" → r.implemented_traits = []) := by
  simp only [scanLine]
  constructor
  · rw [(depStep_fields proj _ _).2.2, declStep_traitsM]
    exact hder
  · intro r hr
    rw [(depStep_fields proj _ _).1] at hr
    have hQ2' : ∀ r ∈ (deriveStep st (trimChars raw) nextRaw).rels,
        r.type_name = "Point" → r.implemented_traits = [] := by
      rw [deriveStep_rels]; exact hQ2
    exact declStep_rels_Q hder hQ2' r hr

theorem scanFinal_Q {proj : Finset String} {st : ScanSt}
    (hQ1 : lookupT st.traitsM "Point" = none)
    (hQ2 : ∀ r ∈ st.rels, r.type_name = "Point" → r.implemented_traits = []) :
    ∀ r ∈ (match st.current with
           | some last => addTypeRelations proj st.rels last st.acc st.traitsM st.usageM
           | none => st.rels),
      r.type_name = "Point" → r.implemented_traits = [] := by
  cases st.current with
  | none => exact hQ2
  | some last =>
    intro r hr hname
    rcases List.mem_append.mp hr with hr' | hr'
    · exact hQ2 r hr' hname
    · rw [List.mem_singleton] at hr'
      subst hr'
      dsimp only at hname ⊢
      rw [hname, hQ1]
      rfl

/-! ### Claim theorems -/

/-- C1: for the two-line input `struct A { b: B }` followed by
`struct B { a: A }` the type-relations analysis terminates and
produces exactly the records `A` and `B`; after the transitive-closure
step `B ∈ A.depends_on`, `A ∈ B.depends_on`, and each type is in its
own `depends_on` set (each is reachable from itself through the
cycle). -/
theorem C1_cycle_tolerance :
    (analyzeTypeRelations "struct A \x7b b: B \x7d\nstruct B \x7b a: A \x7d").map
        (fun r => r.type_name) = ["A", "B"] ∧
    ∀ r ∈ analyzeTypeRelations "struct A \x7b b: B \x7d\nstruct B \x7b a: A \x7d",
      "A" ∈ r.depends_on ∧ "B" ∈ r.depends_on := by decide

/-- C2: the fixed-point relaxation of `build_type_relations`
terminates on every finite relation list (the loop is a total
function): every per-name dependency and user set only grows along a
pass, the closed sets are bounded by the set of all type names
appearing in the input, the loop satisfies its `while changed`
unfolding equation, and it exits (returning the unchanged graphs) as
soon as a full pass adds no new element. -/
theorem C2_closure_termination (rels : List TypeRelations) (g : Graphs) :
    (∀ n, lookupD g.deps n ⊆ lookupD (clPass rels g).1.deps n ∧
          lookupD g.users n ⊆ lookupD (clPass rels g).1.users n) ∧
    (∀ n, lookupD (closeLoop rels (initGraphs rels)).deps n ⊆ allNames rels ∧
          lookupD (closeLoop rels (initGraphs rels)).users n ⊆ allNames rels) ∧
    (closeLoop rels g =
      if (clPass rels g).2 = true then closeLoop rels (clPass rels g).1
      else (clPass rels g).1) ∧
    ((clPass rels g).2 = false → closeLoop rels g = g) := by
  refine ⟨fun n => foldl_relStep_lookup_mono rels (g, false) n,
          fun n => final_bounded rels n, closeLoop_eq rels g, fun h => ?_⟩
  rw [closeLoop_eq rels g, if_neg (by simp [h])]
  exact congrArg Prod.fst (foldl_relStep_false rels g h)

/-- Witness for C2: on the empty relation list the first pass changes
nothing and the loop returns its input graphs unchanged. -/
theorem C2_closure_termination_witness :
    closeLoop [] ⟨[], []⟩ = ⟨[], []⟩ :=
  (C2_closure_termination [] ⟨[], []⟩).2.2.2 (by decide)

/-- C3: the transitive-closure builder is idempotent: applying it a
second time returns exactly the same relation list (the same
`depends_on` and `used_by` contents and order for every record); in
particular on an already-closed relation list the step changes
nothing. -/
theorem C3_closure_idempotent (rels : List TypeRelations) :
    buildTypeRelations (buildTypeRelations rels) = buildTypeRelations rels := by
  have hloop : closeLoop (buildTypeRelations rels)
      (initGraphs (buildTypeRelations rels)) =
      initGraphs (buildTypeRelations rels) :=
    closeLoop_of_closed (build_initGraphs_closed rels)
  have hfix : ∀ r₁ ∈ buildTypeRelations rels,
      closeUpd (buildTypeRelations rels) r₁ = r₁ := by
    intro r₁ hr₁
    rcases build_mem.mp hr₁ with ⟨r, hr, hcl⟩
    have hname : r₁.type_name = r.type_name := by rw [← hcl]; rfl
    have hrecord : r.type_name ∈ relNames rels := mem_relNames.mpr ⟨r, hr, rfl⟩
    refine typeRel_eq rfl rfl ?_ ?_
    · by_cases hk₂ : hasKey (closeLoop (buildTypeRelations rels)
          (initGraphs (buildTypeRelations rels))).users r₁.type_name = true
      · rw [closeUpd_used_by_pos hk₂, hloop]
        rw [show (initGraphs (buildTypeRelations rels)).users =
            usersInit (buildTypeRelations rels) from rfl, lookupD_usersInit]
        have hkG : hasKey (closeLoop rels (initGraphs rels)).users r.type_name = true := by
          rw [hloop] at hk₂
          rw [show (initGraphs (buildTypeRelations rels)).users =
              usersInit (buildTypeRelations rels) from rfl] at hk₂
          rcases (hasKey_usersInit _ _).mp hk₂ with ⟨r₁', hr₁', hmem⟩
          rcases build_mem.mp hr₁' with ⟨r'', hr'', hcl''⟩
          subst hcl''
          rw [closeUpd_deps hr'', mem_sortStr] at hmem
          have hreach := (deps_final_mem rels r''.type_name r₁.type_name).mp hmem
          rcases depReach_last hreach with ⟨z, hz⟩
          rcases mem_depsOf.mp hz with ⟨rr, hrr, _, hmm⟩
          rw [hname] at hmm
          exact (closeLoop_hasKey_mono rels (initGraphs rels) r.type_name).2
            ((hasKey_usersInit rels r.type_name).mpr ⟨rr, hrr, hmm⟩)
        rw [← hcl, closeUpd_used_by_pos hkG]
        congr 1
        apply Finset.ext
        intro y
        exact (mem_usersOf_build).trans (users_final_mem rels r.type_name hrecord y).symm
      · rw [closeUpd_used_by_neg hk₂]
    · rw [closeUpd_deps hr₁, hloop]
      rw [show (initGraphs (buildTypeRelations rels)).deps =
          depsInit (buildTypeRelations rels) from rfl, lookupD_depsInit]
      rw [← hcl, closeUpd_deps hr]
      congr 1
      apply Finset.ext
      intro m
      exact (mem_depsOf_build).trans (deps_final_mem rels r.type_name m).symm
  show (buildTypeRelations rels).map (closeUpd (buildTypeRelations rels)) =
    buildTypeRelations rels
  calc (buildTypeRelations rels).map (closeUpd (buildTypeRelations rels))
      = (buildTypeRelations rels).map id := List.map_congr_left hfix
    _ = buildTypeRelations rels := List.map_id _

/-- C4: for `pub struct Foo { bar: Bar }` later re-declared as
`pub struct Foo { baz: Baz }` (with `Bar`, `Baz` declared in the same
file), the analysis yields exactly one relation record named `Foo`,
and its closed `depends_on` is exactly `{Bar, Baz}` (the fields seen
under the re-declaration are folded into the open `Bar` context and
reach `Foo` through the closure). -/
theorem C4_first_occurrence_wins :
    ((analyzeTypeRelations "pub struct Foo \x7b bar: Bar \x7d\nstruct Bar;\npub struct Foo \x7b baz: Baz \x7d\nstruct Baz;").filter
        (fun r => r.type_name == "Foo")).length = 1 ∧
    ∀ r ∈ analyzeTypeRelations "pub struct Foo \x7b bar: Bar \x7d\nstruct Bar;\npub struct Foo \x7b baz: Baz \x7d\nstruct Baz;",
      r.type_name = "Foo" → r.depends_on = ["Bar", "Baz"] := by decide

/-- C5: the derive lookahead is exactly one line.  When the line
`#[derive(Debug, Clone)]` is immediately followed by
`pub struct Point(i32,i32)`, the analysis yields exactly the record
`Point` with `implemented_traits = ["Debug", "Clone"]` (the derive
body split on commas, trimmed, in order).  When any single line `mid`
is inserted between the two — provided the inserted line is not itself
a derive annotation and does not itself declare `Point`, which would
create an association of its own — every output record named `Point`
has empty `implemented_traits`: no trait association is made by the
original derive line. -/
theorem C5_derive_lookahead :
    ((analyzeTypeRelations "#[derive(Debug, Clone)]\npub struct Point(i32,i32)").map
        (fun r => (r.type_name, r.implemented_traits)) =
      [("Point", ["Debug", "Clone"])]) ∧
    (∀ (s : String) (mid : List Char),
      rustLines s = ["#[derive(Debug, Clone)]".data, mid,
                     "pub struct Point(i32,i32)".data] →
      ("#[derive".data).isPrefixOf (trimChars mid) = false →
      typeDeclCapture (trimChars mid) ≠ some "Point" →
      ∀ r ∈ analyzeTypeRelations s,
        r.type_name = "Point" → r.implemented_traits = []) := by
  constructor
  · decide
  · intro s mid hsplit hnd hnc r₁ hr₁ hname₁
    have hscan : ∀ r ∈ scanRelations s,
        r.type_name = "Point" → r.implemented_traits = [] := by
      simp only [scanRelations, hsplit]
      have h0r : ∀ r ∈ initScan.rels,
          r.type_name = "Point" → r.implemented_traits = [] := by
        intro r hr; simp [initScan] at hr
      have h1 := @scanLine_Q
        (projectTypes ["#[derive(Debug, Clone)]".data, mid,
                       "pub struct Point(i32,i32)".data])
        initScan ("#[derive(Debug, Clone)]".data) (some mid) h0r
        ((deriveStep_lookupT_of_next hnc).trans rfl)
      have h2 := @scanLine_Q
        (projectTypes ["#[derive(Debug, Clone)]".data, mid,
                       "pub struct Point(i32,i32)".data])
        _ mid (some ("pub struct Point(i32,i32)".data)) h1.2
        (by rw [deriveStep_not_derive hnd]; exact h1.1)
      have h3 := @scanLine_Q
        (projectTypes ["#[derive(Debug, Clone)]".data, mid,
                       "pub struct Point(i32,i32)".data])
        _ ("pub struct Point(i32,i32)".data) none h2.2
        (by rw [deriveStep_noNext]; exact h2.1)
      have hsl : scanLines (projectTypes ["#[derive(Debug, Clone)]".data, mid,
                   "pub struct Point(i32,i32)".data]) initScan
                   ["#[derive(Debug, Clone)]".data, mid,
                    "pub struct Point(i32,i32)".data] =
          scanLine (projectTypes ["#[derive(Debug, Clone)]".data, mid,
              "pub struct Point(i32,i32)".data])
            (scanLine (projectTypes ["#[derive(Debug, Clone)]".data, mid,
                "pub struct Point(i32,i32)".data])
              (scanLine (projectTypes ["#[derive(Debug, Clone)]".data, mid,
                  "pub struct Point(i32,i32)".data])
                initScan ("#[derive(Debug, Clone)]".data) (some mid))
              mid (some ("pub struct Point(i32,i32)".data)))
            ("pub struct Point(i32,i32)".data) none := rfl
      rw [hsl]
      exact scanFinal_Q h3.1 h3.2
    have hmem := build_mem.mp hr₁
    rcases hmem with ⟨r, hr, hcl⟩
    subst hcl
    rw [closeUpd_traits]
    exact hscan r hr hname₁

/-- Witness for C5: the blank-line instance of the lookahead claim at
a concrete input, every hypothesis discharged by evaluation. -/
theorem C5_derive_lookahead_witness :
    rustLines "#[derive(Debug, Clone)]\n\npub struct Point(i32,i32)" =
      ["#[derive(Debug, Clone)]".data, [], "pub struct Point(i32,i32)".data] ∧
    (⟨"Point", [], [], []⟩ : TypeRelations).implemented_traits = [] :=
  ⟨by decide,
   C5_derive_lookahead.2 "#[derive(Debug, Clone)]\n\npub struct Point(i32,i32)" []
     (by decide) (by decide) (by decide)
     ⟨"Point", [], [], []⟩ (by decide) (by decide)⟩

/-- C6 (code bug): the spec's visibility-mapping property fails on the
code.  `method_pattern` makes the `<` before its params group optional
but the closing `>` mandatory, so the non-generic lines
`fn helper(x: i32) -> bool` and `pub fn helper(x: i32) -> bool` match
nothing and yield no signature at all; with a generic parameter list
present the mapping behaves as the claim states (no qualifier →
Private, `pub` → Public, `pub(crate)` → PublicCrate). -/
theorem C6_visibility_mapping_eval :
    analyzeMethodSignatures "fn helper(x: i32) -> bool" = [] ∧
    analyzeMethodSignatures "pub fn helper(x: i32) -> bool" = [] ∧
    (analyzeMethodSignatures "fn helper<T>(x: i32) -> bool").map
        (fun s => s.visibility) = [Visibility.Private] ∧
    (analyzeMethodSignatures "pub fn helper<T>(x: i32) -> bool").map
        (fun s => s.visibility) = [Visibility.Public] ∧
    (analyzeMethodSignatures "pub(crate) fn helper<T>(x: i32) -> bool").map
        (fun s => s.visibility) = [Visibility.PublicCrate] := by decide

/-- C7: for the single-parameter declaration
`fn f<K, V>(map: HashMap<K, V>)` the naive comma split of the argument
text produces two raw parameter strings, broken at the comma inside
the generic type — more entries than the one parameter the function
has. -/
theorem C7_naive_comma_split :
    analyzeMethodSignatures "fn f<K, V>(map: HashMap<K, V>)" =
      [{ name := "f", params := ["map: HashMap<K", "V>"], return_type := "()"
       , visibility := Visibility.Private }] ∧
    ∀ s ∈ analyzeMethodSignatures "fn f<K, V>(map: HashMap<K, V>)",
      s.params.length = 2 := by decide

/-- C8: the core analysis is total: for every input string it returns
the (summary, relations, signatures, configuration) tuple (every
component is a total function of the text, so no input can make it
fail; non-matching lines are skipped); and when no line matches the
type-declaration rule, the returned relations list is empty. -/
theorem C8_totality (content path : String) :
    analyzeContent content path =
      (generateSummary content, analyzeTypeRelations content,
       analyzeMethodSignatures content, analyzeConfiguration content) ∧
    ((∀ l ∈ rustLines content, typeDeclCapture (trimChars l) = none) →
      analyzeTypeRelations content = []) := by
  refine ⟨rfl, fun h => ?_⟩
  have hs := @scanLines_no_decl (projectTypes (rustLines content))
    (rustLines content) initScan h rfl
  have hscan : scanRelations content = [] := by
    simp only [scanRelations, hs.1, hs.2]
    rfl
  unfold analyzeTypeRelations
  rw [hscan]
  rfl

/-- Witness for C8 on binary-looking text with no declaration line. -/
theorem C8_totality_witness :
    analyzeTypeRelations "\x00\x01\x02\n###!!!" = [] :=
  (C8_totality "\x00\x01\x02\n###!!!" "bin").2 (by decide)

/-- C9: the generated summary is the first five lines of the file
(after a `File start:` marker), followed by the rule blocks in the
fixed rule order: for each rule, all of its matching lines appear
together, labelled, in their source order, before any line of the next
rule — grouped by rule, not interleaved by source position. -/
theorem C9_summary_grouping (content : String) :
    generateSummary content =
      (if (rustLines content).isEmpty then ""
       else "File start:\n" ++
         String.join (((rustLines content).take 5).map (fun l => String.mk l ++ "\n")))
      ++ String.join (summaryRules.map (fun rule =>
           summaryPart rule.1 rule.2 (rustLines content))) := by
  simp only [generateSummary]
  rw [summary_outer summaryRules (rustLines content)]
  congr 1
  by_cases he : (rustLines content).isEmpty
  · rw [if_pos he, if_pos he]
  · rw [if_neg he, if_neg he, header_fold]

/-- C10: in the relation list returned by the analysis (after the
closure step), `used_by` and `depends_on` are mutually consistent
inverses: for any two records `A` and `B` of the output, `B`'s name is
in `A.used_by` exactly when `A`'s name is in `B.depends_on` — the
final user sets are rebuilt from the inverse of the dependency edges
during the closure, and a scan-time `used_by` survives only for a type
nothing depends on, where it is provably empty of record names. -/
theorem C10_inverse_consistency (content : String) :
    ∀ A ∈ analyzeTypeRelations content, ∀ B ∈ analyzeTypeRelations content,
      (B.type_name ∈ A.used_by ↔ A.type_name ∈ B.depends_on) := by
  unfold analyzeTypeRelations
  exact build_inverse (scan_S2 content)

/-- Witness for C10 on the two-record cyclic input of C1. -/
theorem C10_inverse_consistency_witness :
    ("B" ∈ (⟨"A", [], ["A", "B"], ["A", "B"]⟩ : TypeRelations).used_by ↔
     "A" ∈ (⟨"B", [], ["A", "B"], ["A", "B"]⟩ : TypeRelations).depends_on) :=
  C10_inverse_consistency "struct A \x7b b: B \x7d\nstruct B \x7b a: A \x7d"
    ⟨"A", [], ["A", "B"], ["A", "B"]⟩ (by decide)
    ⟨"B", [], ["A", "B"], ["A", "B"]⟩ (by decide)

end RA
